import Mathlib

/-!
Verification of the Bolt LTL-synthesis core against its specification.

The definitions below are a shallow embedding of the Rust sources:
machine integers (`u64` for `CharSeq`, `u128` for `CharVec`/`SatVec`)
become natural numbers together with explicit `2 ^ w` bounds, hash maps
become association lists, `BinaryHeap` becomes a list whose pop removes
the first element of minimal popcount (the heap order on `SvHash` /
`PcoBoolFormula` is inverted, so Rust's pop yields a least-dense
element), and the 64-bit characteristic hashes are modelled as the
hashed values themselves (the specification assumes hash collisions are
absent). Panicking code paths (`assert!`, `unreachable!`, operator
application to unsupported operators) are modelled by `Option` results
or by hypotheses of the corresponding theorems.
-/

/-! ## Bit containers: `CharSeq` (src/ltl/cs.rs) -/

/-- Characteristic sequence of an LTL formula on one trace
(src/ltl/cs.rs): a length-tagged 64-bit word, embedded as a natural
number together with the bound `values < 2 ^ 64` carried by theorems. -/
structure CharSeq where
  values : Nat
  length : Nat
  deriving DecidableEq, Repr

/-- All-ones 64-bit word, used to express `u64` complement on `Nat`. -/
def mask64 : Nat := 2 ^ 64 - 1

/-- Bitwise complement of a `u64`, as the operation on naturals below
`2 ^ 64` that flips the low 64 bits. -/
def compl64 (x : Nat) : Nat := x ^^^ mask64

/-- `Not for CharSeq` (src/ltl/cs.rs): complement, then mask to
`length` bits when `length < 64` (the shift-by-64 edge case). -/
def CharSeq.not (s : CharSeq) : CharSeq :=
  let v := compl64 s.values
  ⟨if s.length < 64 then v &&& (2 ^ s.length - 1) else v, s.length⟩

/-- `BitOr for CharSeq` (src/ltl/cs.rs). The source asserts equal
lengths; theorems carry that hypothesis. -/
def CharSeq.bitor (s t : CharSeq) : CharSeq :=
  ⟨s.values ||| t.values, s.length⟩

/-- `BitAnd for CharSeq` (src/ltl/cs.rs). The source asserts equal
lengths; theorems carry that hypothesis. -/
def CharSeq.bitand (s t : CharSeq) : CharSeq :=
  ⟨s.values &&& t.values, s.length⟩

/-- `CharSeq::next` (src/ltl/cs.rs): LTL Next, shift right by one. -/
def CharSeq.next (s : CharSeq) : CharSeq :=
  ⟨s.values >>> 1, s.length⟩

/-- `CharSeq::finally` (src/ltl/cs.rs): LTL Finally, suffix-OR by
doubling shifts 1, 2, 4, 8, 16, 32. -/
def CharSeq.finallyOp (s : CharSeq) : CharSeq :=
  let x0 := s.values
  let x1 := x0 ||| (x0 >>> 1)
  let x2 := x1 ||| (x1 >>> 2)
  let x3 := x2 ||| (x2 >>> 4)
  let x4 := x3 ||| (x3 >>> 8)
  let x5 := x4 ||| (x4 >>> 16)
  let x6 := x5 ||| (x5 >>> 32)
  ⟨x6, s.length⟩

/-- `CharSeq::globally` (src/ltl/cs.rs): `¬ F ¬`. -/
def CharSeq.globally (s : CharSeq) : CharSeq :=
  s.not.finallyOp.not

/-- `CharSeq::until` (src/ltl/cs.rs): bit-parallel Until by doubling.
Each round ORs into `y` the chains extended through the `x` prefix and
squares the `x` prefix, for shifts 1, 2, 4, 8, 16, 32. -/
def CharSeq.untilOp (s t : CharSeq) : CharSeq :=
  let x0 := s.values
  let y0 := t.values
  let y1 := y0 ||| (x0 &&& (y0 >>> 1))
  let x1 := x0 &&& (x0 >>> 1)
  let y2 := y1 ||| (x1 &&& (y1 >>> 2))
  let x2 := x1 &&& (x1 >>> 2)
  let y3 := y2 ||| (x2 &&& (y2 >>> 4))
  let x3 := x2 &&& (x2 >>> 4)
  let y4 := y3 ||| (x3 &&& (y3 >>> 8))
  let x4 := x3 &&& (x3 >>> 8)
  let y5 := y4 ||| (x4 &&& (y4 >>> 16))
  let x5 := x4 &&& (x4 >>> 16)
  let y6 := y5 ||| (x5 &&& (y5 >>> 32))
  ⟨y6, s.length⟩

/-- `CharSeq::accepts` (src/ltl/cs.rs): the formula is true at the
first position of the trace. -/
def CharSeq.accepts (s : CharSeq) : Bool :=
  (s.values &&& 1) == 1

/-- A chain witnessing `(φ U ψ)` from bit `i`: `ψ` holds `j` steps
ahead and `φ` holds at every position in between. -/
def chainAt (phi psi : Nat) (i j : Nat) : Prop :=
  psi.testBit (i + j) = true ∧ ∀ l < j, phi.testBit (i + l) = true

/-- Some chain of height below `n` starts at bit `i`. -/
def exChain (phi psi : Nat) (i n : Nat) : Prop :=
  ∃ j < n, chainAt phi psi i j

/-- `φ` holds on the whole window `[i, i + n)`. -/
def allPhi (phi : Nat) (i n : Nat) : Prop :=
  ∀ l < n, phi.testBit (i + l) = true

/-- Boundedness of a `CharSeq`: the tagged length is `L` and all bits
at positions `≥ L` are zero. -/
def goodSeq (s : CharSeq) (L : Nat) : Prop :=
  s.length = L ∧ s.values < 2 ^ L

/-! ## Bit containers: `CharVec`, `SatVec`, `BoolCharac`
(src/bool/cv.rs, src/bool/sv.rs, src/bool/charac.rs) -/

/-- All-ones 128-bit word, used to express `u128` complement on
`Nat`. -/
def mask128 : Nat := 2 ^ 128 - 1

/-- Bitwise complement of a `u128`, as the operation on naturals below
`2 ^ 128` that flips the low 128 bits. -/
def compl128 (x : Nat) : Nat := x ^^^ mask128

/-- Truth table of a Boolean formula over the set of traces
(src/bool/cv.rs): a length-tagged 128-bit word. -/
structure CharVec where
  values : Nat
  length : Nat
  deriving DecidableEq, Repr

/-- Satisfiability vector of a Boolean formula (src/bool/sv.rs):
bit `i` is set iff the formula's value on trace `i` equals that
trace's label. -/
structure SatVec where
  values : Nat
  deriving DecidableEq, Repr

/-- Number of set bits among the 128 bit positions of a `u128`
word. -/
def natPopcount128 (n : Nat) : Nat :=
  ((List.range 128).filter (fun i => n.testBit i)).length

/-- `SatVec::popcount` (src/bool/sv.rs): `count_ones` of the 128-bit
word. -/
def SatVec.popcount (sv : SatVec) : Nat :=
  natPopcount128 sv.values

/-- `SatVec::dominates` (src/bool/sv.rs): `other` is a subset of
`self`, i.e. `¬self ∧ other = 0` over the 128-bit words. -/
def SatVec.dominates (sv other : SatVec) : Bool :=
  (compl128 sv.values &&& other.values) == 0

/-- `CharVec::satisfied` (src/bool/cv.rs): the vector of traces on
which the formula's value matches the target, `(cv ∧ t) ∨ ¬(cv ∨ t)`
masked to `length` bits when `length < 128` (the shift-by-128 edge
case). The source asserts equal lengths; theorems carry that
hypothesis. -/
def CharVec.satisfied (cv target : CharVec) : SatVec :=
  let v := (cv.values &&& target.values) |||
    compl128 (cv.values ||| target.values)
  ⟨if cv.length < 128 then v &&& (2 ^ cv.length - 1) else v⟩

/-- `CharVec::xor_satvec` (src/bool/cv.rs). -/
def CharVec.xor_satvec (cv : CharVec) (sv : SatVec) : SatVec :=
  ⟨cv.values ^^^ sv.values⟩

/-- `BitOr for CharVec` (src/bool/cv.rs). -/
def CharVec.bitor (a b : CharVec) : CharVec :=
  ⟨a.values ||| b.values, a.length⟩

/-- `BitAnd for CharVec` (src/bool/cv.rs). -/
def CharVec.bitand (a b : CharVec) : CharVec :=
  ⟨a.values &&& b.values, a.length⟩

/-- Binary LTL operators (src/ops/binary.rs). -/
inductive LtlBinaryOp where
  | or
  | and
  | until
  deriving DecidableEq, Repr

/-- `LtlBinaryOp::apply_cv` (src/ops/binary.rs): apply a Boolean
operator to two characteristic vectors; the source panics on `Until`,
modelled by `none`. -/
def LtlBinaryOp.apply_cv : LtlBinaryOp → CharVec → CharVec → Option CharVec
  | .or, a, b => some (a.bitor b)
  | .and, a, b => some (a.bitand b)
  | .until, _, _ => none

/-- `BoolCharac` (src/bool/charac.rs): a characteristic vector with
its derived satisfiability vector. The stored `cv_hash` field is not
modelled separately: hashes are represented by the hashed values
themselves, following the specification's no-collision assumption. -/
structure BoolCharac where
  cv : CharVec
  sv : SatVec
  deriving DecidableEq, Repr

/-- `BoolCharac::from_cv` (src/bool/charac.rs). -/
def BoolCharac.from_cv (cv target : CharVec) : BoolCharac :=
  ⟨cv, cv.satisfied target⟩

/-- `BinaryOp for BoolCharac` (src/bool/charac.rs): the new `sv` is
reconstructed from the first operand's `cv` and `sv` by XOR instead of
consulting the target. -/
def BoolCharac.apply (op : LtlBinaryOp) (f1 f2 : BoolCharac) :
    Option BoolCharac :=
  (LtlBinaryOp.apply_cv op f1.cv f2.cv).map fun cv =>
    let not_target := f1.cv.xor_satvec f1.sv
    ⟨cv, cv.xor_satvec not_target⟩

/-- `BoolCharac::sat_positive_count` (src/bool/charac.rs). -/
def BoolCharac.sat_positive_count (f : BoolCharac) : Nat :=
  natPopcount128 (f.cv.values &&& f.sv.values)

/-- `BoolCharac::sat_negative_count` (src/bool/charac.rs). -/
def BoolCharac.sat_negative_count (f : BoolCharac) : Nat :=
  natPopcount128 (compl128 f.cv.values &&& f.sv.values)

/-! ## Operators and the operator-section parser
(src/ops/unary.rs, src/ops/binary.rs, src/ltl/trace.rs) -/

/-- Unary LTL operators (src/ops/unary.rs). `Finally` is rendered
`finallyOp` because `finally` clashes with Lean syntax. -/
inductive LtlUnaryOp where
  | next
  | finallyOp
  | globally
  deriving DecidableEq, Repr

/-- `LtlUnaryOp::all` (src/ops/unary.rs). -/
def LtlUnaryOp.all : List LtlUnaryOp :=
  [.next, .finallyOp, .globally]

/-- `LtlBinaryOp::all` (src/ops/binary.rs). -/
def LtlBinaryOp.all : List LtlBinaryOp :=
  [.or, .and, .until]

/-- `InvalidUnaryOp` error payload (src/ops/unary.rs). -/
structure InvalidUnaryOp where
  token : String
  deriving DecidableEq, Repr

/-- `InvalidBinaryOp` error payload (src/ops/binary.rs). -/
structure InvalidBinaryOp where
  token : String
  deriving DecidableEq, Repr

/-- `TryFrom<&str> for LtlUnaryOp` (src/ops/unary.rs). -/
def LtlUnaryOp.try_from (s : String) : Except InvalidUnaryOp LtlUnaryOp :=
  if s = "X" then .ok .next
  else if s = "F" then .ok .finallyOp
  else if s = "G" then .ok .globally
  else .error ⟨s⟩

/-- `TryFrom<&str> for LtlBinaryOp` (src/ops/binary.rs). -/
def LtlBinaryOp.try_from (s : String) : Except InvalidBinaryOp LtlBinaryOp :=
  if s = "|" then .ok .or
  else if s = "&" then .ok .and
  else if s = "U" then .ok .until
  else .error ⟨s⟩

/-- `Operators` (src/ltl/trace.rs). -/
structure Operators where
  unary : List LtlUnaryOp
  binary : List LtlBinaryOp
  deriving DecidableEq, Repr

/-- The operator section of `parse_traces` (src/ltl/trace.rs): either
the literal `All Operators`, or the comma-split tokens pushed through
the fallible operator parsers with parse errors dropped
(`filter_map(.. .ok())`). -/
def parseOperatorSection (opDesc : String) : Operators :=
  if opDesc = "All Operators" then ⟨LtlUnaryOp.all, LtlBinaryOp.all⟩
  else
    ⟨(String.splitOn opDesc (",")).filterMap
        (fun s => (LtlUnaryOp.try_from s).toOption),
      (String.splitOn opDesc (",")).filterMap
        (fun s => (LtlBinaryOp.try_from s).toOption)⟩

/-! ## Splitting the target (src/algos/meta/mod.rs, `find_split`) -/

/-- Number of positive traces in a target, `target.iter().filter().count()`
in `find_split` (src/algos/meta/mod.rs). -/
def nbPos (target : List Bool) : Nat := target.count true

/-- Number of negative traces, `nb_traces - nb_pos` in `find_split`
(src/algos/meta/mod.rs). -/
def nbNeg (target : List Bool) : Nat := target.length - nbPos target

/-- The Boolean value of the majority class: in the source's loop the
comparison is `t == (nb_pos > nb_neg)`. -/
def majClass (target : List Bool) : Bool :=
  decide (nbPos target > nbNeg target)

/-- The index-distribution loop of `find_split`
(src/algos/meta/mod.rs): `i` is the current trace index and `j` counts
the majority-class traces seen so far; majority indices go alternately
left and right, minority indices go to both sides. -/
def splitFold (maj : Bool) : List Bool → Nat → Nat → List Nat × List Nat
  | [], _, _ => ([], [])
  | b :: rest, i, j =>
    if b = maj then
      let p := splitFold maj rest (i + 1) (j + 1)
      if j % 2 = 0 then (i :: p.1, p.2) else (p.1, i :: p.2)
    else
      let p := splitFold maj rest (i + 1) j
      (i :: p.1, i :: p.2)

/-- `find_split` (src/algos/meta/mod.rs): give up when at most one
positive and at most one negative; otherwise split the majority class
alternately, duplicating the minority, joining with `Or` when the
positives strictly outnumber the negatives and with `And`
otherwise. -/
def find_split (target : List Bool) :
    Option (LtlBinaryOp × List Nat × List Nat) :=
  if nbPos target ≤ 1 ∧ nbNeg target ≤ 1 then none
  else
    let op := if nbPos target > nbNeg target then LtlBinaryOp.or
      else LtlBinaryOp.and
    let p := splitFold (majClass target) target 0 0
    some (op, p.1, p.2)

/-! ## Cache models (src/ltl/cache.rs, src/bool/cache.rs,
src/algos/beam_search/cache.rs, src/algos/set_cover/cache.rs)

`FxHashMap` is modelled as an association list whose keys are the
64-bit hashes, themselves modelled injectively by natural numbers;
`BinaryHeap` is modelled as a list whose pop removes the first element
of minimal popcount (the `Ord` instances on `SvHash` and
`PcoBoolFormula` invert the comparison, so Rust's pop yields a
least-dense element, with ties broken in an unspecified way). -/

/-- `HashMap::get`: first binding of the key. -/
def alookup {α : Type} (m : List (Nat × α)) (k : Nat) : Option α :=
  (m.find? (fun p => p.1 == k)).map (fun p => p.2)

/-- `Entry::insert` on an occupied entry: replace the binding. -/
def aupdate {α : Type} (m : List (Nat × α)) (k : Nat) (v : α) :
    List (Nat × α) :=
  m.map (fun p => if p.1 == k then (k, v) else p)

/-- `HashMap::remove`: drop the bindings of the key. -/
def aremove {α : Type} (m : List (Nat × α)) (k : Nat) : List (Nat × α) :=
  m.filter (fun p => p.1 != k)

/-- Pop of the inverted-order `BinaryHeap`: remove the first element
of minimal weight and return it with the remaining elements. -/
def popMinBy {α : Type} (w : α → Nat) : List α → Option (α × List α)
  | [] => none
  | x :: xs =>
    match popMinBy w xs with
    | none => some (x, [])
    | some (y, ys) => if w x ≤ w y then some (x, xs) else some (y, x :: ys)

/-- Cache-level abstraction of a cached formula (`Formula<Char>`,
src/formula/mod.rs): its characteristic hash, its size and its
satisfiability vector; the remaining fields do not influence cache
behaviour. -/
structure MForm where
  hash : Nat
  size : Nat
  sv : SatVec
  deriving DecidableEq, Repr

/-- `LtlCache` (src/ltl/cache.rs): hash map from hash to
(line, index), plus the per-size lines. -/
structure LtlCacheM where
  hash_to_line : List (Nat × (Nat × Nat))
  lines : List (List MForm)
  deriving DecidableEq, Repr

/-- `FormulaCache::get` for `LtlCache` (src/ltl/cache.rs). -/
def LtlCacheM.get (c : LtlCacheM) (h : Nat) : Option MForm :=
  (alookup c.hash_to_line h).bind fun li =>
    (c.lines.get? li.1).bind fun line => line.get? li.2

/-- `LtlCache::new_line` (src/ltl/cache.rs): allocate an empty bucket;
pushes through the returned handle target the new last line. -/
def LtlCacheM.new_line (c : LtlCacheM) : LtlCacheM :=
  ⟨c.hash_to_line, c.lines ++ [[]]⟩

/-- `LtlCacheLine::push` (src/ltl/cache.rs) on the line with index
`s`: reject on a hash hit, else record `(s, index)` and append. The
source's `assert_eq!(f.size, size_index)` is carried as a hypothesis
by the theorems. -/
def LtlCacheM.push (c : LtlCacheM) (s : Nat) (f : MForm) :
    Bool × LtlCacheM :=
  match alookup c.hash_to_line f.hash with
  | some _ => (false, c)
  | none =>
    let index := (c.lines.getD s []).length
    (true, ⟨(f.hash, (s, index)) :: c.hash_to_line,
      c.lines.set s ((c.lines.getD s []) ++ [f])⟩)

/-- `SvHash` (src/bool/cache.rs): a satisfiability vector with the
hash of the corresponding formula, as kept in the `best_sv` heaps. -/
structure SvHash where
  sv : SatVec
  hash : Nat
  deriving DecidableEq, Repr

/-- `BoolCache` (src/bool/cache.rs): hash map, per-size lines, and the
per-size heaps of the `k` densest formulas used for domination. -/
structure BoolCacheM where
  hash_to_line : List (Nat × (Nat × Nat))
  lines : List (List MForm)
  best_sv : List (List SvHash)
  k : Nat
  deriving DecidableEq, Repr

/-- `BoolCache::new` (src/bool/cache.rs). -/
def BoolCacheM.new (k : Nat) : BoolCacheM :=
  ⟨[], [], [], k⟩

/-- `FormulaCache::get` for `BoolCache` (src/bool/cache.rs). -/
def BoolCacheM.get (c : BoolCacheM) (h : Nat) : Option MForm :=
  (alookup c.hash_to_line h).bind fun li =>
    (c.lines.get? li.1).bind fun line => line.get? li.2

/-- `BoolCache::new_line` (src/bool/cache.rs): allocate an empty
bucket and an empty heap. -/
def BoolCacheM.new_line (c : BoolCacheM) : BoolCacheM :=
  ⟨c.hash_to_line, c.lines ++ [[]], c.best_sv ++ [[]], c.k⟩

/-- `BoolCacheLine::dominates` (src/bool/cache.rs): whether some
tracked formula of the current size `s` or of an earlier size
dominates `f`. The iteration order over the heaps only affects which
dominator is reported, not whether one exists. -/
def BoolCacheM.dominated (c : BoolCacheM) (s : Nat) (f : MForm) : Bool :=
  ((c.best_sv.getD s []).any (fun h => h.sv.dominates f.sv)) ||
    ((c.best_sv.take s).any (fun heap =>
      heap.any (fun h => h.sv.dominates f.sv)))

/-- `BoolCacheLine::push` (src/bool/cache.rs) on the line with index
`s`: reject when dominated or on a hash hit; else append, track the
`SvHash` in the size-`s` heap, and drop the least dense tracked entry
when the heap exceeds `k`. -/
def BoolCacheM.push (c : BoolCacheM) (s : Nat) (f : MForm) :
    Bool × BoolCacheM :=
  if c.dominated s f then (false, c)
  else
    match alookup c.hash_to_line f.hash with
    | some _ => (false, c)
    | none =>
      let index := (c.lines.getD s []).length
      let heap := (⟨f.sv, f.hash⟩ : SvHash) :: (c.best_sv.getD s [])
      let heap2 := if heap.length > c.k then
          ((popMinBy (fun h => h.sv.popcount) heap).map Prod.snd).getD heap
        else heap
      (true, ⟨(f.hash, (s, index)) :: c.hash_to_line,
        c.lines.set s ((c.lines.getD s []) ++ [f]),
        c.best_sv.set s heap2, c.k⟩)

/-- `BeamSearchCache` (src/algos/beam_search/cache.rs): hash map from
hash to formula, and per-size beams of width `max_line_size`. -/
structure BeamCacheM where
  entries : List (Nat × MForm)
  lines : List (List MForm)
  max_line_size : Nat
  deriving DecidableEq, Repr

/-- `FormulaCache::get` for `BeamSearchCache`
(src/algos/beam_search/cache.rs). -/
def BeamCacheM.get (c : BeamCacheM) (h : Nat) : Option MForm :=
  alookup c.entries h

/-- `BeamSearchCache::new_line` (src/algos/beam_search/cache.rs). -/
def BeamCacheM.new_line (c : BeamCacheM) : BeamCacheM :=
  ⟨c.entries, c.lines ++ [[]], c.max_line_size⟩

/-- `BeamSearchBoolCacheLine::push` (src/algos/beam_search/cache.rs)
on the line with index `s`: reject when a current-line formula
dominates the candidate or on a hash hit; else insert, and on beam
overflow remove the least dense formula from the beam and delete its
hash entry, still returning `true`. -/
def BeamCacheM.push (c : BeamCacheM) (s : Nat) (f : MForm) :
    Bool × BeamCacheM :=
  if (c.lines.getD s []).any (fun g => g.sv.dominates f.sv) then (false, c)
  else
    match alookup c.entries f.hash with
    | some _ => (false, c)
    | none =>
      let entries2 := (f.hash, f) :: c.entries
      let line2 := f :: (c.lines.getD s [])
      if line2.length > c.max_line_size then
        match popMinBy (fun g => g.sv.popcount) line2 with
        | some rem =>
          (true, ⟨aremove entries2 rem.1.hash, c.lines.set s rem.2,
            c.max_line_size⟩)
        | none => (true, ⟨entries2, c.lines.set s line2, c.max_line_size⟩)
      else (true, ⟨entries2, c.lines.set s line2, c.max_line_size⟩)

/-- `ScCache` (src/algos/set_cover/cache.rs): one representative per
hash. -/
structure ScCacheM where
  entries : List (Nat × MForm)
  deriving DecidableEq, Repr

/-- `FormulaCache::get` for `ScCache` (src/algos/set_cover/cache.rs). -/
def ScCacheM.get (c : ScCacheM) (h : Nat) : Option MForm :=
  alookup c.entries h

/-- `ScCache::push` (src/algos/set_cover/cache.rs): on an occupied
entry replace it and return `true` when the stored size is strictly
larger; on a vacant entry store the formula and return `false`. -/
def ScCacheM.push (c : ScCacheM) (f : MForm) : Bool × ScCacheM :=
  match alookup c.entries f.hash with
  | some g =>
    if g.size > f.size then (true, ⟨aupdate c.entries f.hash f⟩)
    else (false, c)
  | none => (false, ⟨(f.hash, f) :: c.entries⟩)

/-- An enumeration-cache operation: allocate a new line, or push a
formula through the current line handle (the last line). -/
inductive CacheOp where
  | newLine
  | push (f : MForm)
  deriving DecidableEq, Repr

/-- Apply one operation to a `BoolCache`: pushes go to the current
(last) line, as enforced by the `new_line` handle discipline. -/
def BoolCacheM.applyOp (c : BoolCacheM) : CacheOp → BoolCacheM
  | .newLine => c.new_line
  | .push f => (c.push (c.lines.length - 1) f).2

/-- Run a sequence of operations on a `BoolCache`. -/
def BoolCacheM.runOps (c : BoolCacheM) (ops : List CacheOp) : BoolCacheM :=
  ops.foldl BoolCacheM.applyOp c

/-! ## Formula trees, traces and evaluation
(src/ltl/mod.rs, src/formula/tree.rs, src/ltl/trace.rs, src/ltl/cm.rs) -/

/-- `PredicateForm` (src/ltl/mod.rs): a variable or its negation. -/
inductive PredicateForm where
  | positive (i : Nat)
  | negative (i : Nat)
  deriving DecidableEq, Repr

/-- `Predicate` (src/ltl/mod.rs): display name and predicate form. -/
structure Predicate where
  name : String
  form : PredicateForm
  deriving DecidableEq, Repr

/-- `FormulaTree` (src/formula/tree.rs): explicit operator tree. -/
inductive FormulaTree where
  | atom (p : Predicate)
  | unaryNode (op : LtlUnaryOp) (child : FormulaTree)
  | binaryNode (op : LtlBinaryOp) (left : FormulaTree) (right : FormulaTree)
  deriving DecidableEq, Repr

/-- `Trace` (src/ltl/trace.rs): the `CharSeq` of each predicate. -/
structure Trace where
  alphabet : List CharSeq
  deriving DecidableEq, Repr

/-- `LtlUnaryOp::apply_cm` on one sequence (src/ops/unary.rs,
src/ltl/cm.rs). -/
def LtlUnaryOp.applySeq : LtlUnaryOp → CharSeq → CharSeq
  | .next, s => s.next
  | .finallyOp, s => s.finallyOp
  | .globally, s => s.globally

/-- `LtlBinaryOp::apply_cm` on one pair of sequences
(src/ops/binary.rs, src/ltl/cm.rs). -/
def LtlBinaryOp.applySeq : LtlBinaryOp → CharSeq → CharSeq → CharSeq
  | .or, a, b => a.bitor b
  | .and, a, b => a.bitand b
  | .until, a, b => a.untilOp b

/-- `FormulaTree::eval` (src/formula/tree.rs): the characteristic
matrix (one `CharSeq` per trace). An atom out of the alphabet's range
panics in the source; it is modelled by an empty default sequence. -/
def FormulaTree.eval : FormulaTree → List Trace → List CharSeq
  | .atom ⟨_, .positive i⟩, traces =>
    traces.map (fun t => t.alphabet.getD i ⟨0, 0⟩)
  | .atom ⟨_, .negative i⟩, traces =>
    traces.map (fun t => (t.alphabet.getD i ⟨0, 0⟩).not)
  | .unaryNode op child, traces =>
    (child.eval traces).map (LtlUnaryOp.applySeq op)
  | .binaryNode op l r, traces =>
    ((l.eval traces).zip (r.eval traces)).map
      (fun p => LtlBinaryOp.applySeq op p.1 p.2)

/-- Evaluation of a `FormulaTree` on a single trace; `eval` is its
pointwise extension because every `CharSeq` operator acts
trace-locally. -/
def FormulaTree.evalT : FormulaTree → Trace → CharSeq
  | .atom ⟨_, .positive i⟩, t => t.alphabet.getD i ⟨0, 0⟩
  | .atom ⟨_, .negative i⟩, t => (t.alphabet.getD i ⟨0, 0⟩).not
  | .unaryNode op child, t => LtlUnaryOp.applySeq op (child.evalT t)
  | .binaryNode op l r, t =>
    LtlBinaryOp.applySeq op (l.evalT t) (r.evalT t)

/-- `CharMatrix::accepted_vec` (src/ltl/cm.rs): whether each trace is
accepted (bit 0 of its sequence). -/
def acceptedVec (cm : List CharSeq) : List Bool :=
  cm.map CharSeq.accepts

/-! ## Promotion cache `InitialBoolCache` (src/algos/meta/cache.rs) -/

/-- `HashMap::get` for keys that are label-relative satisfiability
vectors (the vectors stand for their 64-bit hashes, following the
no-collision assumption). -/
def blookup {α : Type} (m : List (List Bool × α)) (k : List Bool) :
    Option α :=
  (m.find? (fun p => p.1 == k)).map (fun p => p.2)

/-- `LongSv` (src/algos/meta/cache.rs): unbounded satisfiability
vector with its popcount and the formula size; the stored hash is
modelled by the vector itself. -/
structure LongSv where
  popcount : Nat
  sv : List Bool
  size : Nat
  deriving DecidableEq, Repr

/-- `LongSv::from_cv_target` (src/algos/meta/cache.rs). -/
def LongSv.from_cv_target (cv target : List Bool) (size : Nat) : LongSv :=
  let sv := (cv.zip target).map (fun p => p.1 == p.2)
  ⟨sv.count true, sv, size⟩

/-- `BitVec::dominates` through `LongSv::dominates`
(src/algos/meta/cache.rs): pointwise `¬a ∧ b = 0`. The source asserts
equal word counts. -/
def LongSv.dominates (a b : LongSv) : Bool :=
  (a.sv.zip b.sv).all (fun p => !(!p.1 && p.2))

/-- One record of `InitialBoolCache` (the `BoolInfo` tuple,
src/algos/meta/cache.rs): characteristic vector, shared tree, size. -/
structure BoolInfo where
  cv : List Bool
  tree : FormulaTree
  size : Nat
  deriving DecidableEq, Repr

/-- `InitialBoolCache` (src/algos/meta/cache.rs). -/
structure IBCacheM where
  hash_cache : List (List Bool × FormulaTree)
  lines : List (List BoolInfo)
  best_sv : List (List LongSv)
  k : Nat
  deriving DecidableEq, Repr

/-- `InitialBoolCache::get_from_cv` (src/algos/meta/cache.rs). -/
def IBCacheM.get_from_cv (c : IBCacheM) (cv target : List Bool) :
    Option FormulaTree :=
  blookup c.hash_cache (LongSv.from_cv_target cv target 0).sv

/-- `InitialBoolCache::is_redundant` (src/algos/meta/cache.rs): an
equivalent entry by hash, or a dominating tracked formula of a
strictly smaller size (`best_sv[..lsv.size]`). -/
def IBCacheM.is_redundant (c : IBCacheM) (lsv : LongSv) : Bool :=
  (blookup c.hash_cache lsv.sv).isSome ||
    ((c.best_sv.take lsv.size).any (fun heap =>
      heap.any (fun lsv2 => lsv2.dominates lsv)))

/-- `InitialBoolCache::push` (src/algos/meta/cache.rs): reject
redundant entries, else record the tree under the label-relative hash,
append to the size line, track the `LongSv`, and drop the least dense
tracked entry when the heap exceeds `k`. -/
def IBCacheM.push (c : IBCacheM) (cv : List Bool) (target : List Bool)
    (f_tree : FormulaTree) (size : Nat) : Bool × IBCacheM :=
  let lsv := LongSv.from_cv_target cv target size
  if c.is_redundant lsv then (false, c)
  else
    let heap := lsv :: (c.best_sv.getD size [])
    let heap2 := if heap.length > c.k then
        ((popMinBy (fun l => l.popcount) heap).map Prod.snd).getD heap
      else heap
    (true, ⟨(lsv.sv, f_tree) :: c.hash_cache,
      c.lines.set size ((c.lines.getD size []) ++ [⟨cv, f_tree, size⟩]),
      c.best_sv.set size heap2, c.k⟩)

/-- Run a sequence of pushes against a fixed target; the construction
sites (`from_ltl_cache`, `reduce`, `split`) iterate the lines in
non-decreasing size order. -/
def IBCacheM.pushAll (c : IBCacheM) (target : List Bool)
    (xs : List (List Bool × FormulaTree × Nat)) : IBCacheM :=
  xs.foldl (fun acc x => (acc.push x.1 target x.2.1 x.2.2).2) c

/-- `InitialBoolCache::reduce` (src/algos/meta/cache.rs): project
every stored entry and the target onto the given indices and push the
projections into a fresh cache of the same width. -/
def IBCacheM.reduce (c : IBCacheM) (indices : List Nat)
    (target : List Bool) : IBCacheM :=
  let target2 := indices.map (fun i => target.getD i false)
  let c0 : IBCacheM := ⟨[], List.replicate c.lines.length [],
    List.replicate c.lines.length [], c.k⟩
  c.lines.foldl (fun acc l =>
    l.foldl (fun acc2 e =>
      (acc2.push (indices.map (fun i => e.cv.getD i false)) target2
        e.tree e.size).2) acc) c0

/-! ## Meta driver (src/algos/meta/mod.rs) -/

/-- The right-hand index set of `split_and_solve_non_overlapping`
(src/algos/meta/mod.rs): traces the left result does not already
decide correctly. For an Or-split keep negatives and unsatisfied
positives; for an And-split keep positives and unsatisfied
negatives. -/
def rightIndices (op : LtlBinaryOp) (solved target : List Bool) :
    List Nat :=
  ((solved.zip target).enum).filterMap (fun p =>
    match op with
    | .or => if !p.2.2 || !p.2.1 then some p.1 else none
    | .and => if p.2.2 || p.2.1 then some p.1 else none
    | .until => none)

/-- The `nb_not_sat` count of `split_and_solve_non_overlapping`
(src/algos/meta/mod.rs): remaining wrong-label traces on the right
side. The `unreachable!` arm is modelled by `false`. -/
def nbNotSat (op : LtlBinaryOp) (right : List Nat)
    (target : List Bool) : Nat :=
  (right.filter (fun i =>
    match op with
    | .or => target.getD i false
    | .and => !(target.getD i false)
    | .until => false)).length

mutual

/-- `solve_or_split` (src/algos/meta/mod.rs), parameterised by the
Boolean policy (`BoolAlgoParams::run`, src/algos/mod.rs) abstracted as
a function from the promotion cache and target to an optional tree.
`fuel` bounds the recursion depth: a run that exhausts it is modelled
as returning no formula, so every theorem about a `some` result is a
statement about the runs that return. -/
def solveOrSplit (policy : IBCacheM → List Bool → Option FormulaTree) :
    Nat → List Trace → IBCacheM → List Bool → Option FormulaTree
  | 0, _, _, _ => none
  | fuel + 1, traces, cache, target =>
    match cache.get_from_cv target target with
    | some f => some f
    | none =>
      if target.length > 128 then
        splitAndSolveNonOverlapping policy fuel traces cache target
      else
        match policy cache target with
        | some f => some f
        | none => splitAndSolveNonOverlapping policy fuel traces cache target

/-- `split_and_solve_non_overlapping` (src/algos/meta/mod.rs): split
the target, solve the left subproblem on the reduced cache, shortcut
when no wrong-label trace remains, else solve the right subproblem on
the not-yet-satisfied indices and combine. -/
def splitAndSolveNonOverlapping
    (policy : IBCacheM → List Bool → Option FormulaTree) :
    Nat → List Trace → IBCacheM → List Bool → Option FormulaTree
  | 0, _, _, _ => none
  | fuel + 1, traces, cache, target =>
    match find_split target with
    | none => none
    | some (op, left, _) =>
      let leftCache := cache.reduce left target
      let leftTarget := left.map (fun i => target.getD i false)
      let leftTraces := left.map (fun i => traces.getD i ⟨[]⟩)
      match solveOrSplit policy fuel leftTraces leftCache leftTarget with
      | none => none
      | some leftRes =>
        let solved := acceptedVec (leftRes.eval traces)
        let right := rightIndices op solved target
        if nbNotSat op right target = 0 then some leftRes
        else
          let rightCache := cache.reduce right target
          let rightTarget := right.map (fun i => target.getD i false)
          let rightTraces := right.map (fun i => traces.getD i ⟨[]⟩)
          match solveOrSplit policy fuel rightTraces rightCache
              rightTarget with
          | none => none
          | some rightRes =>
            some (FormulaTree.binaryNode op leftRes rightRes)

end

/-- Semantic invariant of the promotion cache relative to the traces
and target of the current subproblem: every hash-cache binding is
keyed by the label-relative satisfiability vector of its tree, and
every stored record carries the accepted-vector of its tree. -/
def cacheInv (c : IBCacheM) (traces : List Trace)
    (target : List Bool) : Prop :=
  (∀ p ∈ c.hash_cache,
      p.1 = ((acceptedVec (FormulaTree.eval p.2 traces)).zip target).map
        (fun q => q.1 == q.2)) ∧
    (∀ line ∈ c.lines, ∀ e ∈ line,
      e.cv = acceptedVec (FormulaTree.eval e.tree traces))

/-- Domination invariant of `BoolCache`: no stored formula is
dominated by a tracked formula of a strictly smaller size. -/
def boolInvariant (c : BoolCacheM) : Prop :=
  ∀ s line, c.lines.get? s = some line → ∀ f ∈ line, ∀ s' < s,
    ∀ h ∈ c.best_sv.getD s' [], h.sv.dominates f.sv = false

/-- Domination invariant of `InitialBoolCache` relative to a fixed
target: no stored entry is dominated by a tracked `LongSv` of a
strictly smaller size. -/
def ibcInvariant (c : IBCacheM) (target : List Bool) : Prop :=
  ∀ s line, c.lines.get? s = some line → ∀ e ∈ line, ∀ s' < s,
    ∀ l2 ∈ c.best_sv.getD s' [],
      l2.dominates (LongSv.from_cv_target e.cv target e.size) = false

/-! ## Set-cover greedy construction (src/algos/set_cover/aux.rs) -/

/-- Rust `Iterator::max_by_key`: the LAST maximal element. The
`FxHashSet` of `aux_set_cover` is modelled as a list, its unspecified
iteration order standing for the list order. -/
def lastMaxBy {α : Type} (w : α → Nat) : List α → Option α
  | [] => none
  | x :: xs =>
    match lastMaxBy w xs with
    | none => some x
    | some y => if w x > w y then some x else some y

mutual

/-- The labelled outer loop (`'run: while ...`) of `aux_set_cover`
(src/algos/set_cover/aux.rs), parameterised by the combination
(`apply_binary(op, ..)`) and the coverage measure `sat_fn`; the pool,
result vector and `ScCache` are threaded explicitly and `fuel` bounds
the iteration count (exhaustion is `none`, as is the `unreachable`
empty-pool `unwrap` and the `assert_eq` panic). -/
def scOuter (comb : MForm → MForm → MForm) (satF : MForm → Nat)
    (targetSat maxNb : Nat) :
    Nat → List MForm → List MForm → ScCacheM →
      Option (List MForm × ScCacheM)
  | 0, _, _, _ => none
  | fuel + 1, pool, res, cache =>
    if pool.isEmpty ∨ maxNb ≤ res.length then some (res, cache)
    else
      match lastMaxBy satF pool with
      | none => none
      | some best =>
        scInner comb satF targetSat maxNb fuel (pool.erase best) best
          res cache

/-- The inner combination loop (`while sat_fn(&best) < target_sat`) of
`aux_set_cover` (src/algos/set_cover/aux.rs): an empty pool or a
combination with no coverage progress does `break 'run`, ending the
whole run with the result accumulated so far; otherwise the seed is
pushed to the cache and the loop continues with the combination. -/
def scInner (comb : MForm → MForm → MForm) (satF : MForm → Nat)
    (targetSat maxNb : Nat) :
    Nat → List MForm → MForm → List MForm → ScCacheM →
      Option (List MForm × ScCacheM)
  | 0, _, _, _, _ => none
  | fuel + 1, pool, best, res, cache =>
    if satF best < targetSat then
      if pool.isEmpty then some (res, cache)
      else
        match lastMaxBy (fun f => satF (comb best f)) pool with
        | none => none
        | some f =>
          if satF (comb best f) = satF best then some (res, cache)
          else
            scInner comb satF targetSat maxNb fuel (pool.erase f)
              (comb best f) res ((cache.push best).2)
    else
      if satF best = targetSat then
        scOuter comb satF targetSat maxNb fuel pool (res ++ [best])
          ((cache.push best).2)
      else none

end

/-- `aux_set_cover` (src/algos/set_cover/aux.rs): run the outer loop
from an empty result vector. -/
def aux_set_cover (comb : MForm → MForm → MForm) (satF : MForm → Nat)
    (targetSat maxNb fuel : Nat) (formulas : List MForm)
    (cache : ScCacheM) : Option (List MForm × ScCacheM) :=
  scOuter comb satF targetSat maxNb fuel formulas [] cache

mutual

/-- Modelled from the spec (§4.5), not the source: the reading in
which a no-progress combination aborts only the inner loop, the outer
loop continuing with the remaining pool. Differs from `scOuter` /
`scInner` exactly in the no-progress branch. -/
def scOuterSpec (comb : MForm → MForm → MForm) (satF : MForm → Nat)
    (targetSat maxNb : Nat) :
    Nat → List MForm → List MForm → ScCacheM →
      Option (List MForm × ScCacheM)
  | 0, _, _, _ => none
  | fuel + 1, pool, res, cache =>
    if pool.isEmpty ∨ maxNb ≤ res.length then some (res, cache)
    else
      match lastMaxBy satF pool with
      | none => none
      | some best =>
        scInnerSpec comb satF targetSat maxNb fuel (pool.erase best) best
          res cache

/-- Spec-reading counterpart of `scInner`: on no progress, return to
the outer loop instead of aborting the run. -/
def scInnerSpec (comb : MForm → MForm → MForm) (satF : MForm → Nat)
    (targetSat maxNb : Nat) :
    Nat → List MForm → MForm → List MForm → ScCacheM →
      Option (List MForm × ScCacheM)
  | 0, _, _, _, _ => none
  | fuel + 1, pool, best, res, cache =>
    if satF best < targetSat then
      if pool.isEmpty then some (res, cache)
      else
        match lastMaxBy (fun f => satF (comb best f)) pool with
        | none => none
        | some f =>
          if satF (comb best f) = satF best then
            scOuterSpec comb satF targetSat maxNb fuel (pool.erase f)
              res cache
          else
            scInnerSpec comb satF targetSat maxNb fuel (pool.erase f)
              (comb best f) res ((cache.push best).2)
    else
      if satF best = targetSat then
        scOuterSpec comb satF targetSat maxNb fuel pool (res ++ [best])
          ((cache.push best).2)
      else none

end

/-- Spec-reading counterpart of `aux_set_cover`. -/
def aux_set_cover_spec (comb : MForm → MForm → MForm)
    (satF : MForm → Nat) (targetSat maxNb fuel : Nat)
    (formulas : List MForm) (cache : ScCacheM) :
    Option (List MForm × ScCacheM) :=
  scOuterSpec comb satF targetSat maxNb fuel formulas [] cache

/-! ## Theorems -/

theorem allPhi_double (phi : Nat) (i n : Nat) :
    allPhi phi i (2 * n) ↔ allPhi phi i n ∧ allPhi phi (i + n) n := by
  constructor
  · intro h
    refine ⟨fun l hl => h l (by omega), fun l hl => ?_⟩
    have := h (n + l) (by omega)
    simpa [Nat.add_assoc] using this
  · rintro ⟨h1, h2⟩ l hl
    by_cases hc : l < n
    · exact h1 l hc
    · have := h2 (l - n) (by omega)
      have hrw : i + n + (l - n) = i + l := by omega
      rwa [hrw] at this

theorem exChain_double (phi psi : Nat) (i n : Nat) :
    exChain phi psi i (2 * n) ↔
      exChain phi psi i n ∨ (allPhi phi i n ∧ exChain phi psi (i + n) n) := by
  constructor
  · rintro ⟨j, hj, hpsi, hphi⟩
    by_cases hc : j < n
    · exact Or.inl ⟨j, hc, hpsi, hphi⟩
    · refine Or.inr ⟨fun l hl => hphi l (by omega), j - n, by omega, ?_, ?_⟩
      · have hrw : i + n + (j - n) = i + j := by omega
        rw [hrw]; exact hpsi
      · intro l hl
        have := hphi (n + l) (by omega)
        rwa [← Nat.add_assoc] at this
  · rintro (⟨j, hj, hpsi, hphi⟩ | ⟨hall, j, hj, hpsi, hphi⟩)
    · exact ⟨j, by omega, hpsi, hphi⟩
    · refine ⟨n + j, by omega, ?_, ?_⟩
      · rwa [Nat.add_assoc] at hpsi
      · intro l hl
        by_cases hc : l < n
        · exact hall l hc
        · have := hphi (l - n) (by omega)
          have hrw : i + n + (l - n) = i + l := by omega
          rwa [hrw] at this

theorem until_step (phi psi x y n : Nat)
    (hx : ∀ i, (x.testBit i = true) ↔ allPhi phi i n)
    (hy : ∀ i, (y.testBit i = true) ↔ exChain phi psi i n) :
    (∀ i, ((y ||| (x &&& (y >>> n))).testBit i = true) ↔
        exChain phi psi i (2 * n)) ∧
      (∀ i, ((x &&& (x >>> n)).testBit i = true) ↔ allPhi phi i (2 * n)) := by
  constructor
  · intro i
    rw [exChain_double]
    simp only [Nat.testBit_lor, Nat.testBit_land, Nat.testBit_shiftRight,
      Bool.or_eq_true, Bool.and_eq_true]
    rw [hy i, hx i, hy (n + i)]
    rw [Nat.add_comm n i]
  · intro i
    rw [allPhi_double]
    simp only [Nat.testBit_land, Nat.testBit_shiftRight, Bool.and_eq_true]
    rw [hx i, hx (n + i)]
    rw [Nat.add_comm n i]

theorem untilOp_testBit (s t : CharSeq) (i : Nat) :
    ((s.untilOp t).values.testBit i = true) ↔
      exChain s.values t.values i 64 := by
  have h0x : ∀ i, (s.values.testBit i = true) ↔ allPhi s.values i 1 := by
    intro i
    unfold allPhi
    constructor
    · intro h l hl
      have hl0 : l = 0 := by omega
      subst hl0
      simpa using h
    · intro h
      simpa using h 0 (by omega)
  have h0y : ∀ i, (t.values.testBit i = true) ↔ exChain s.values t.values i 1 := by
    intro i
    unfold exChain chainAt
    constructor
    · intro h
      exact ⟨0, by omega, by simpa using h, by omega⟩
    · rintro ⟨j, hj, hpsi, _⟩
      have hj0 : j = 0 := by omega
      subst hj0
      simpa using hpsi
  have h1 := until_step s.values t.values s.values t.values 1 h0x h0y
  have h2 := until_step s.values t.values _ _ 2 h1.2 h1.1
  have h3 := until_step s.values t.values _ _ 4 h2.2 h2.1
  have h4 := until_step s.values t.values _ _ 8 h3.2 h3.1
  have h5 := until_step s.values t.values _ _ 16 h4.2 h4.1
  have h6 := until_step s.values t.values _ _ 32 h5.2 h5.1
  have := (h6.1 i)
  norm_num at this
  simpa [CharSeq.untilOp] using this

theorem shiftRight_le_self (x n : Nat) : x >>> n ≤ x := by
  rw [Nat.shiftRight_eq_div_pow]
  exact Nat.div_le_self _ _

theorem or_shift_step_lt {y L : Nat} (x n : Nat) (hy : y < 2 ^ L) :
    y ||| (x &&& (y >>> n)) < 2 ^ L :=
  Nat.or_lt_two_pow hy
    (Nat.and_lt_two_pow x (Nat.lt_of_le_of_lt (shiftRight_le_self y n) hy))

theorem or_self_shift_lt {x L : Nat} (n : Nat) (hx : x < 2 ^ L) :
    x ||| (x >>> n) < 2 ^ L :=
  Nat.or_lt_two_pow hx (Nat.lt_of_le_of_lt (shiftRight_le_self x n) hx)

theorem goodSeq_not {s : CharSeq} {L : Nat} (hL : L ≤ 64) (hs : goodSeq s L) :
    goodSeq s.not L := by
  obtain ⟨hlen, hval⟩ := hs
  refine ⟨by simp [CharSeq.not, hlen], ?_⟩
  simp only [CharSeq.not, hlen]
  by_cases hc : L < 64
  · simp only [if_pos hc]
    exact Nat.and_lt_two_pow _ (Nat.sub_lt (Nat.two_pow_pos L) Nat.one_pos)
  · have h64 : L = 64 := by omega
    simp only [if_neg hc]
    subst h64
    exact Nat.xor_lt_two_pow hval (Nat.sub_lt (Nat.two_pow_pos 64) Nat.one_pos)

theorem goodSeq_bitor {s t : CharSeq} {L : Nat} (hs : goodSeq s L)
    (ht : goodSeq t L) : goodSeq (s.bitor t) L :=
  ⟨hs.1, Nat.or_lt_two_pow hs.2 ht.2⟩

theorem goodSeq_bitand {s t : CharSeq} {L : Nat} (hs : goodSeq s L)
    (ht : goodSeq t L) : goodSeq (s.bitand t) L :=
  ⟨hs.1, Nat.and_lt_two_pow _ ht.2⟩

theorem goodSeq_next {s : CharSeq} {L : Nat} (hs : goodSeq s L) :
    goodSeq s.next L :=
  ⟨hs.1, Nat.lt_of_le_of_lt (shiftRight_le_self _ _) hs.2⟩

theorem goodSeq_finallyOp {s : CharSeq} {L : Nat} (hs : goodSeq s L) :
    goodSeq s.finallyOp L := by
  refine ⟨hs.1, ?_⟩
  simp only [CharSeq.finallyOp]
  exact or_self_shift_lt _ (or_self_shift_lt _ (or_self_shift_lt _
    (or_self_shift_lt _ (or_self_shift_lt _ (or_self_shift_lt _ hs.2)))))

theorem goodSeq_globally {s : CharSeq} {L : Nat} (hL : L ≤ 64)
    (hs : goodSeq s L) : goodSeq s.globally L :=
  goodSeq_not hL (goodSeq_finallyOp (goodSeq_not hL hs))

theorem goodSeq_untilOp {s t : CharSeq} {L : Nat} (hs : goodSeq s L)
    (ht : goodSeq t L) : goodSeq (s.untilOp t) L := by
  refine ⟨hs.1, ?_⟩
  simp only [CharSeq.untilOp]
  exact or_shift_step_lt _ _ (or_shift_step_lt _ _ (or_shift_step_lt _ _
    (or_shift_step_lt _ _ (or_shift_step_lt _ _ (or_shift_step_lt _ _ ht.2)))))

theorem exChain_expand (phi psi : Nat) (L i : Nat) (hL : L ≤ 64)
    (hpsi : psi < 2 ^ L) :
    exChain phi psi i 64 ↔
      (psi.testBit i = true) ∨
        ((phi.testBit i = true) ∧ exChain phi psi (i + 1) 64) := by
  constructor
  · rintro ⟨j, hj, hpsi_j, hphi_j⟩
    match j with
    | 0 => exact Or.inl (by simpa using hpsi_j)
    | j + 1 =>
      refine Or.inr ⟨by simpa using hphi_j 0 (by omega), j, by omega, ?_, ?_⟩
      · have hrw : i + 1 + j = i + (j + 1) := by omega
        rw [hrw]; exact hpsi_j
      · intro l hl
        have := hphi_j (l + 1) (by omega)
        have hrw : i + (l + 1) = i + 1 + l := by omega
        rwa [hrw] at this
  · rintro (h | ⟨hphi_i, j, hj, hpsi_j, hphi_j⟩)
    · exact ⟨0, by omega, by simpa using h, by omega⟩
    · have hbit : i + 1 + j < L := by
        by_contra hge
        have : psi < 2 ^ (i + 1 + j) :=
          Nat.lt_of_lt_of_le hpsi (Nat.pow_le_pow_right (by omega) (by omega))
        rw [Nat.testBit_lt_two_pow this] at hpsi_j
        exact Bool.false_ne_true hpsi_j
      refine ⟨j + 1, by omega, ?_, ?_⟩
      · have hrw : i + (j + 1) = i + 1 + j := by omega
        rw [hrw]; exact hpsi_j
      · intro l hl
        match l with
        | 0 => simpa using hphi_i
        | l + 1 =>
          have := hphi_j l (by omega)
          have hrw : i + 1 + l = i + (l + 1) := by omega
          rwa [hrw] at this

/-- C7: for equal-length `CharSeq`s of length `L ≤ 64` whose bits at
positions `≥ L` are zero, the bit-parallel doubling implementation
satisfies the expansion identity
`until(φ, ψ) = ψ | (φ & next(until(φ, ψ)))`, i.e.
`(φ U ψ)[i] = ψ[i] ∨ (φ[i] ∧ (φ U ψ)[i+1])` at every position, and
`(φ U ψ)[L-1] = ψ[L-1]`. -/
theorem until_expansion (phi psi : CharSeq) (hlen : phi.length = psi.length)
    (hL : psi.length ≤ 64) (hphi : phi.values < 2 ^ phi.length)
    (hpsi : psi.values < 2 ^ psi.length) :
    phi.untilOp psi = psi.bitor (phi.bitand ((phi.untilOp psi).next)) ∧
      (0 < psi.length →
        (phi.untilOp psi).values.testBit (psi.length - 1) =
          psi.values.testBit (psi.length - 1)) := by
  constructor
  · have hval : (phi.untilOp psi).values =
        psi.values ||| (phi.values &&& ((phi.untilOp psi).values >>> 1)) := by
      apply Nat.eq_of_testBit_eq
      intro i
      apply Bool.eq_iff_iff.mpr
      simp only [Nat.testBit_lor, Nat.testBit_land, Nat.testBit_shiftRight,
        Bool.or_eq_true, Bool.and_eq_true]
      rw [untilOp_testBit, untilOp_testBit]
      rw [exChain_expand phi.values psi.values psi.length i hL hpsi]
      rw [Nat.add_comm 1 i]
    have hlhs : phi.untilOp psi = ⟨(phi.untilOp psi).values, phi.length⟩ := by
      simp [CharSeq.untilOp]
    rw [hlhs]
    simp only [CharSeq.bitor, CharSeq.bitand, CharSeq.next, CharSeq.mk.injEq]
    exact ⟨hval, hlen⟩
  · intro hpos
    apply Bool.eq_iff_iff.mpr
    rw [untilOp_testBit]
    constructor
    · rintro ⟨j, hj, hpsi_j, hphi_j⟩
      have hlt : psi.length - 1 + j < psi.length := by
        by_contra hge
        have : psi.values < 2 ^ (psi.length - 1 + j) :=
          Nat.lt_of_lt_of_le hpsi (Nat.pow_le_pow_right (by omega) (by omega))
        rw [Nat.testBit_lt_two_pow this] at hpsi_j
        exact Bool.false_ne_true hpsi_j
      have hj0 : j = 0 := by omega
      subst hj0
      simpa using hpsi_j
    · intro h
      exact ⟨0, by omega, by simpa using h, by omega⟩

/-- Witness for C7: the expansion identity at `φ = 101`, `ψ = 010`
(length 3). -/
theorem until_expansion_witness :
    ((⟨5, 3⟩ : CharSeq).length = (⟨2, 3⟩ : CharSeq).length ∧
        (⟨2, 3⟩ : CharSeq).length ≤ 64 ∧
        (⟨5, 3⟩ : CharSeq).values < 2 ^ (⟨5, 3⟩ : CharSeq).length ∧
        (⟨2, 3⟩ : CharSeq).values < 2 ^ (⟨2, 3⟩ : CharSeq).length) ∧
      (CharSeq.untilOp ⟨5, 3⟩ ⟨2, 3⟩ =
          CharSeq.bitor ⟨2, 3⟩
            (CharSeq.bitand ⟨5, 3⟩
              (CharSeq.next (CharSeq.untilOp ⟨5, 3⟩ ⟨2, 3⟩))) ∧
        (0 < (⟨2, 3⟩ : CharSeq).length →
          (CharSeq.untilOp ⟨5, 3⟩ ⟨2, 3⟩).values.testBit
              ((⟨2, 3⟩ : CharSeq).length - 1) =
            (⟨2, 3⟩ : CharSeq).values.testBit
              ((⟨2, 3⟩ : CharSeq).length - 1))) :=
  ⟨⟨by decide, by decide, by decide, by decide⟩,
    until_expansion ⟨5, 3⟩ ⟨2, 3⟩ (by decide) (by decide) (by decide)
      (by decide)⟩

/-- C9: every `CharSeq` operator (Not, Or, And, Next, Finally,
Globally, Until) applied to sequences of length `L ≤ 64` whose bits at
positions `≥ L` are zero yields a sequence of the same length whose
bits at positions `≥ L` are again zero. -/
theorem charseq_ops_preserve_goodSeq (s t : CharSeq) (L : Nat) (hL : L ≤ 64)
    (hs : goodSeq s L) (ht : goodSeq t L) :
    goodSeq s.not L ∧ goodSeq (s.bitor t) L ∧ goodSeq (s.bitand t) L ∧
      goodSeq s.next L ∧ goodSeq s.finallyOp L ∧ goodSeq s.globally L ∧
      goodSeq (s.untilOp t) L :=
  ⟨goodSeq_not hL hs, goodSeq_bitor hs ht, goodSeq_bitand hs ht,
    goodSeq_next hs, goodSeq_finallyOp hs, goodSeq_globally hL hs,
    goodSeq_untilOp hs ht⟩

/-- Witness for C9 at the length-3 sequences `101` and `011`. -/
theorem charseq_ops_preserve_goodSeq_witness :
    ((3 : Nat) ≤ 64 ∧ goodSeq ⟨5, 3⟩ 3 ∧ goodSeq ⟨6, 3⟩ 3) ∧
      (goodSeq (CharSeq.not ⟨5, 3⟩) 3 ∧
        goodSeq (CharSeq.bitor ⟨5, 3⟩ ⟨6, 3⟩) 3 ∧
        goodSeq (CharSeq.bitand ⟨5, 3⟩ ⟨6, 3⟩) 3 ∧
        goodSeq (CharSeq.next ⟨5, 3⟩) 3 ∧
        goodSeq (CharSeq.finallyOp ⟨5, 3⟩) 3 ∧
        goodSeq (CharSeq.globally ⟨5, 3⟩) 3 ∧
        goodSeq (CharSeq.untilOp ⟨5, 3⟩ ⟨6, 3⟩) 3) :=
  ⟨⟨by decide, ⟨by decide, by decide⟩, ⟨by decide, by decide⟩⟩,
    charseq_ops_preserve_goodSeq ⟨5, 3⟩ ⟨6, 3⟩ 3 (by decide)
      ⟨by decide, by decide⟩ ⟨by decide, by decide⟩⟩

theorem compl128_testBit (z i : Nat) :
    (compl128 z).testBit i = ((z.testBit i).xor (decide (i < 128))) := by
  have hm : mask128.testBit i = decide (i < 128) := by
    unfold mask128
    exact Nat.testBit_two_pow_sub_one 128 i
  rw [compl128, Nat.testBit_xor, hm]

theorem satisfied_values_low (a t i : Nat) (hi : i < 128) :
    ((a &&& t) ||| compl128 (a ||| t)).testBit i =
      (a.testBit i == t.testBit i) := by
  rw [Nat.testBit_lor, Nat.testBit_land, compl128_testBit, Nat.testBit_lor,
    decide_eq_true hi]
  cases a.testBit i <;> cases t.testBit i <;> rfl

theorem satisfied_values_high (a t i : Nat) (ha : a < 2 ^ 128)
    (ht : t < 2 ^ 128) (hi : 128 ≤ i) :
    ((a &&& t) ||| compl128 (a ||| t)).testBit i = false := by
  have ha_i : a.testBit i = false :=
    Nat.testBit_lt_two_pow
      (Nat.lt_of_lt_of_le ha (Nat.pow_le_pow_right (by omega) hi))
  have ht_i : t.testBit i = false :=
    Nat.testBit_lt_two_pow
      (Nat.lt_of_lt_of_le ht (Nat.pow_le_pow_right (by omega) hi))
  rw [Nat.testBit_lor, Nat.testBit_land, compl128_testBit, Nat.testBit_lor,
    ha_i, ht_i]
  simp [Nat.not_lt.mpr hi]

theorem satisfied_testBit (cv t : CharVec) (hlen : cv.length = t.length)
    (hL : cv.length ≤ 128) (hcv : cv.values < 2 ^ 128)
    (ht : t.values < 2 ^ 128) (i : Nat) :
    (cv.satisfied t).values.testBit i =
      (decide (i < cv.length) &&
        (cv.values.testBit i == t.values.testBit i)) := by
  unfold CharVec.satisfied
  by_cases hc : cv.length < 128
  · simp only [if_pos hc]
    rw [Nat.testBit_land, Nat.testBit_two_pow_sub_one]
    by_cases hi : i < cv.length
    · rw [satisfied_values_low _ _ _ (by omega), decide_eq_true hi]
      cases cv.values.testBit i <;> cases t.values.testBit i <;> rfl
    · simp [hi]
  · have h128 : cv.length = 128 := by omega
    simp only [if_neg hc]
    by_cases hi : i < 128
    · rw [satisfied_values_low _ _ _ hi, h128, decide_eq_true hi]
      cases cv.values.testBit i <;> cases t.values.testBit i <;> rfl
    · rw [satisfied_values_high _ _ _ hcv ht (by omega)]
      simp [h128, hi]

/-- C8: the `SatVec` stored in a `BoolCharac` always equals the
pointwise derivation `sv[i] = 1` iff `cv[i] = target[i]` for
`i < length` (and `0` for `i ≥ length`): this holds for
`BoolCharac::from_cv`, and it is preserved by every successful binary
operator application, even though `apply` reconstructs the new `sv`
from the first operand's `cv` and `sv` via XOR, provided both operands
satisfy the property for the same target. -/
theorem boolcharac_sv_invariant (f1 f2 : BoolCharac) (t : CharVec)
    (op : LtlBinaryOp) (hlen1 : f1.cv.length = t.length)
    (hlen2 : f2.cv.length = t.length) (hL : t.length ≤ 128)
    (h1 : f1.cv.values < 2 ^ t.length) (h2 : f2.cv.values < 2 ^ t.length)
    (ht : t.values < 2 ^ 128) (hsv1 : f1.sv = f1.cv.satisfied t)
    (hsv2 : f2.sv = f2.cv.satisfied t) :
    (∀ cv : CharVec, cv.length = t.length → cv.values < 2 ^ t.length →
        ∀ i, ((BoolCharac.from_cv cv t).sv.values.testBit i =
          (decide (i < t.length) &&
            (cv.values.testBit i == t.values.testBit i)))) ∧
      (∀ g, BoolCharac.apply op f1 f2 = some g →
        g.cv.length = t.length ∧ g.cv.values < 2 ^ t.length ∧
          g.sv = g.cv.satisfied t) := by
  have hpow : (2 : Nat) ^ t.length ≤ 2 ^ 128 :=
    Nat.pow_le_pow_right (by omega) hL
  constructor
  · intro cv hlen hval i
    have := satisfied_testBit cv t hlen (by omega)
      (Nat.lt_of_lt_of_le hval hpow) ht i
    simpa [BoolCharac.from_cv, hlen] using this
  · intro g hg
    have hcv' : ∃ hcv : CharVec, LtlBinaryOp.apply_cv op f1.cv f2.cv = some hcv ∧
        g = ⟨hcv, hcv.xor_satvec (f1.cv.xor_satvec f1.sv)⟩ := by
      unfold BoolCharac.apply at hg
      cases hop : LtlBinaryOp.apply_cv op f1.cv f2.cv with
      | none => rw [hop] at hg; simp at hg
      | some c => rw [hop] at hg; simp at hg; exact ⟨c, rfl, hg.symm⟩
    obtain ⟨c, hop, hgc⟩ := hcv'
    have hc_len : c.length = t.length := by
      cases op
      · simp only [LtlBinaryOp.apply_cv, Option.some.injEq] at hop
        rw [← hop]
        exact hlen1
      · simp only [LtlBinaryOp.apply_cv, Option.some.injEq] at hop
        rw [← hop]
        exact hlen1
      · simp [LtlBinaryOp.apply_cv] at hop
    have hc_val : c.values < 2 ^ t.length := by
      cases op
      · simp only [LtlBinaryOp.apply_cv, Option.some.injEq] at hop
        rw [← hop]
        exact Nat.or_lt_two_pow h1 h2
      · simp only [LtlBinaryOp.apply_cv, Option.some.injEq] at hop
        rw [← hop]
        exact Nat.and_lt_two_pow _ h2
      · simp [LtlBinaryOp.apply_cv] at hop
    subst hgc
    refine ⟨hc_len, hc_val, ?_⟩
    have hfin : c.values ^^^ (f1.cv.values ^^^ f1.sv.values) =
        (c.satisfied t).values := by
      apply Nat.eq_of_testBit_eq
      intro i
      have hs1 := satisfied_testBit f1.cv t hlen1 (by omega)
        (Nat.lt_of_lt_of_le h1 hpow) ht i
      have hsc := satisfied_testBit c t hc_len (by omega)
        (Nat.lt_of_lt_of_le hc_val hpow) ht i
      rw [hsv1] at *
      simp only [Nat.testBit_xor]
      rw [hs1, hsc, hc_len, hlen1]
      by_cases hi : i < t.length
      · simp only [decide_eq_true hi]
        have hc_i := c.values.testBit i
        cases c.values.testBit i <;> cases f1.cv.values.testBit i <;>
          cases t.values.testBit i <;> simp
      · have hc_i : c.values.testBit i = false :=
          Nat.testBit_lt_two_pow
            (Nat.lt_of_lt_of_le hc_val (Nat.pow_le_pow_right (by omega) (by omega)))
        have h1_i : f1.cv.values.testBit i = false :=
          Nat.testBit_lt_two_pow
            (Nat.lt_of_lt_of_le h1 (Nat.pow_le_pow_right (by omega) (by omega)))
        simp [hc_i, h1_i, hi]
    simp only [CharVec.xor_satvec]
    rw [show c.satisfied t = ⟨(c.satisfied t).values⟩ from rfl, SatVec.mk.injEq]
    exact hfin

/-- Witness for C8 at the length-2 vectors `cv1 = 01`, `cv2 = 11` and
target `10`, combined with `Or`. -/
theorem boolcharac_sv_invariant_witness :
    ((BoolCharac.from_cv ⟨2, 2⟩ ⟨1, 2⟩).cv.length = (⟨1, 2⟩ : CharVec).length ∧
        (BoolCharac.from_cv ⟨3, 2⟩ ⟨1, 2⟩).cv.length = (⟨1, 2⟩ : CharVec).length ∧
        (⟨1, 2⟩ : CharVec).length ≤ 128 ∧
        (BoolCharac.from_cv ⟨2, 2⟩ ⟨1, 2⟩).cv.values <
          2 ^ (⟨1, 2⟩ : CharVec).length ∧
        (BoolCharac.from_cv ⟨3, 2⟩ ⟨1, 2⟩).cv.values <
          2 ^ (⟨1, 2⟩ : CharVec).length ∧
        (⟨1, 2⟩ : CharVec).values < 2 ^ 128 ∧
        (BoolCharac.from_cv ⟨2, 2⟩ ⟨1, 2⟩).sv =
          (BoolCharac.from_cv ⟨2, 2⟩ ⟨1, 2⟩).cv.satisfied ⟨1, 2⟩ ∧
        (BoolCharac.from_cv ⟨3, 2⟩ ⟨1, 2⟩).sv =
          (BoolCharac.from_cv ⟨3, 2⟩ ⟨1, 2⟩).cv.satisfied ⟨1, 2⟩) ∧
      ((∀ cv : CharVec, cv.length = (⟨1, 2⟩ : CharVec).length →
          cv.values < 2 ^ (⟨1, 2⟩ : CharVec).length →
          ∀ i, ((BoolCharac.from_cv cv ⟨1, 2⟩).sv.values.testBit i =
            (decide (i < (⟨1, 2⟩ : CharVec).length) &&
              (cv.values.testBit i == (⟨1, 2⟩ : CharVec).values.testBit i)))) ∧
        (∀ g, BoolCharac.apply .or (BoolCharac.from_cv ⟨2, 2⟩ ⟨1, 2⟩)
            (BoolCharac.from_cv ⟨3, 2⟩ ⟨1, 2⟩) = some g →
          g.cv.length = (⟨1, 2⟩ : CharVec).length ∧
            g.cv.values < 2 ^ (⟨1, 2⟩ : CharVec).length ∧
            g.sv = g.cv.satisfied ⟨1, 2⟩)) :=
  ⟨⟨rfl, rfl, by decide, by decide, by decide, Nat.one_lt_two_pow_iff.mpr
      (by decide), rfl, rfl⟩,
    boolcharac_sv_invariant (BoolCharac.from_cv ⟨2, 2⟩ ⟨1, 2⟩)
      (BoolCharac.from_cv ⟨3, 2⟩ ⟨1, 2⟩) ⟨1, 2⟩ .or rfl rfl (by decide)
      (by decide) (by decide)
      (Nat.one_lt_two_pow_iff.mpr (by decide)) rfl rfl⟩

/-- C10: when parsing the operator section of a trace file (any text
other than the literal `All Operators`), every comma-separated token
outside the set X, F, G, &, |, U is skipped without producing an error
or aborting (its parse error is discarded by the filter), and exactly
the recognised tokens are turned into their corresponding unary and
binary operators. -/
theorem operator_tokens_skipped (opDesc : String)
    (hne : opDesc ≠ "All Operators") :
    ((parseOperatorSection opDesc).unary =
        (String.splitOn opDesc (",")).filterMap
          (fun s => (LtlUnaryOp.try_from s).toOption)) ∧
      ((parseOperatorSection opDesc).binary =
        (String.splitOn opDesc (",")).filterMap
          (fun s => (LtlBinaryOp.try_from s).toOption)) ∧
      (∀ s : String, s ∉ (["X", "F", "G", "&", "|", "U"] : List String) →
        (LtlUnaryOp.try_from s).toOption = none ∧
          (LtlBinaryOp.try_from s).toOption = none) ∧
      (LtlUnaryOp.try_from ("X")).toOption = some .next ∧
      (LtlUnaryOp.try_from ("F")).toOption = some .finallyOp ∧
      (LtlUnaryOp.try_from ("G")).toOption = some .globally ∧
      (LtlBinaryOp.try_from ("&")).toOption = some .and ∧
      (LtlBinaryOp.try_from ("|")).toOption = some .or ∧
      (LtlBinaryOp.try_from ("U")).toOption = some .until := by
  refine ⟨?_, ?_, ?_, rfl, rfl, rfl, rfl, rfl, rfl⟩
  · simp [parseOperatorSection, if_neg hne]
  · simp [parseOperatorSection, if_neg hne]
  · intro s hs
    simp only [List.mem_cons, List.mem_singleton, not_or] at hs
    obtain ⟨h1, h2, h3, h4, h5, h6, _⟩ := hs
    constructor
    · simp [LtlUnaryOp.try_from, h1, h2, h3, Except.toOption]
    · simp [LtlBinaryOp.try_from, h4, h5, h6, Except.toOption]

/-- Witness for C10 on the operator section `F,foo,&`. -/
theorem operator_tokens_skipped_witness :
    ("F,foo,&" ≠ "All Operators") ∧
      (((parseOperatorSection ("F,foo,&")).unary =
          (String.splitOn ("F,foo,&") (",")).filterMap
            (fun s => (LtlUnaryOp.try_from s).toOption)) ∧
        ((parseOperatorSection ("F,foo,&")).binary =
          (String.splitOn ("F,foo,&") (",")).filterMap
            (fun s => (LtlBinaryOp.try_from s).toOption)) ∧
        (∀ s : String, s ∉ (["X", "F", "G", "&", "|", "U"] : List String) →
          (LtlUnaryOp.try_from s).toOption = none ∧
            (LtlBinaryOp.try_from s).toOption = none) ∧
        (LtlUnaryOp.try_from ("X")).toOption = some .next ∧
        (LtlUnaryOp.try_from ("F")).toOption = some .finallyOp ∧
        (LtlUnaryOp.try_from ("G")).toOption = some .globally ∧
        (LtlBinaryOp.try_from ("&")).toOption = some .and ∧
        (LtlBinaryOp.try_from ("|")).toOption = some .or ∧
        (LtlBinaryOp.try_from ("U")).toOption = some .until) :=
  ⟨by decide, operator_tokens_skipped ("F,foo,&") (by decide)⟩

theorem splitFold_mem (maj : Bool) (l : List Bool) (i0 j0 idx : Nat) :
    (idx ∈ (splitFold maj l i0 j0).1 ↔
        ∃ k b, l.get? k = some b ∧ idx = i0 + k ∧
          (b ≠ maj ∨ (j0 + (l.take k).count maj) % 2 = 0)) ∧
      (idx ∈ (splitFold maj l i0 j0).2 ↔
        ∃ k b, l.get? k = some b ∧ idx = i0 + k ∧
          (b ≠ maj ∨ (j0 + (l.take k).count maj) % 2 = 1)) := by
  induction l generalizing i0 j0 with
  | nil => simp [splitFold]
  | cons b rest ih =>
    have hsplit : ∀ (P : Nat → Bool → Prop),
        ((∃ k b', (b :: rest).get? k = some b' ∧ idx = i0 + k ∧ P k b') ↔
          ((idx = i0 ∧ P 0 b) ∨
            (∃ k b', rest.get? k = some b' ∧ idx = (i0 + 1) + k ∧
              P (k + 1) b'))) := by
      intro P
      constructor
      · rintro ⟨k, b', hk, hidx, hP⟩
        match k with
        | 0 =>
          simp only [List.get?_cons_zero, Option.some.injEq] at hk
          subst hk
          exact Or.inl ⟨by omega, hP⟩
        | k + 1 =>
          simp only [List.get?_cons_succ] at hk
          exact Or.inr ⟨k, b', hk, by omega, hP⟩
      · rintro (⟨hidx, hP⟩ | ⟨k, b', hk, hidx, hP⟩)
        · exact ⟨0, b, rfl, by omega, hP⟩
        · exact ⟨k + 1, b', by simpa using hk, by omega, hP⟩
    by_cases hb : b = maj
    · subst hb
      by_cases hj : j0 % 2 = 0
      · simp only [splitFold, if_pos rfl, if_pos hj, if_true]
        have ihm := ih (i0 + 1) (j0 + 1)
        constructor
        · rw [List.mem_cons, ihm.1, hsplit
            (fun k b' => b' ≠ b ∨ (j0 + ((b :: rest).take k).count b) % 2 = 0)]
          constructor
          · rintro (h | ⟨k, b', hk, hidx, hP⟩)
            · exact Or.inl ⟨h, Or.inr (by simpa using hj)⟩
            · refine Or.inr ⟨k, b', hk, hidx, ?_⟩
              rcases hP with h | h
              · exact Or.inl h
              · refine Or.inr ?_
                simp only [List.take_succ_cons, List.count_cons_self]
                omega
          · rintro (⟨hidx, _⟩ | ⟨k, b', hk, hidx, hP⟩)
            · exact Or.inl hidx
            · refine Or.inr ⟨k, b', hk, hidx, ?_⟩
              rcases hP with h | h
              · exact Or.inl h
              · refine Or.inr ?_
                simp only [List.take_succ_cons, List.count_cons_self] at h
                omega
        · rw [ihm.2, hsplit
            (fun k b' => b' ≠ b ∨ (j0 + ((b :: rest).take k).count b) % 2 = 1)]
          constructor
          · rintro ⟨k, b', hk, hidx, hP⟩
            refine Or.inr ⟨k, b', hk, hidx, ?_⟩
            rcases hP with h | h
            · exact Or.inl h
            · refine Or.inr ?_
              simp only [List.take_succ_cons, List.count_cons_self]
              omega
          · rintro (⟨hidx, hP⟩ | ⟨k, b', hk, hidx, hP⟩)
            · rcases hP with h | h
              · exact absurd rfl h
              · simp only [List.take_zero, List.count_nil] at h
                omega
            · refine ⟨k, b', hk, hidx, ?_⟩
              rcases hP with h | h
              · exact Or.inl h
              · refine Or.inr ?_
                simp only [List.take_succ_cons, List.count_cons_self] at h
                omega
      · simp only [splitFold, if_pos rfl, if_neg hj, if_true]
        have ihm := ih (i0 + 1) (j0 + 1)
        constructor
        · rw [ihm.1, hsplit
            (fun k b' => b' ≠ b ∨ (j0 + ((b :: rest).take k).count b) % 2 = 0)]
          constructor
          · rintro ⟨k, b', hk, hidx, hP⟩
            refine Or.inr ⟨k, b', hk, hidx, ?_⟩
            rcases hP with h | h
            · exact Or.inl h
            · refine Or.inr ?_
              simp only [List.take_succ_cons, List.count_cons_self]
              omega
          · rintro (⟨hidx, hP⟩ | ⟨k, b', hk, hidx, hP⟩)
            · rcases hP with h | h
              · exact absurd rfl h
              · simp only [List.take_zero, List.count_nil] at h
                omega
            · refine ⟨k, b', hk, hidx, ?_⟩
              rcases hP with h | h
              · exact Or.inl h
              · refine Or.inr ?_
                simp only [List.take_succ_cons, List.count_cons_self] at h
                omega
        · rw [List.mem_cons, ihm.2, hsplit
            (fun k b' => b' ≠ b ∨ (j0 + ((b :: rest).take k).count b) % 2 = 1)]
          constructor
          · rintro (h | ⟨k, b', hk, hidx, hP⟩)
            · refine Or.inl ⟨h, Or.inr ?_⟩
              simp only [List.take_zero, List.count_nil]
              omega
            · refine Or.inr ⟨k, b', hk, hidx, ?_⟩
              rcases hP with h | h
              · exact Or.inl h
              · refine Or.inr ?_
                simp only [List.take_succ_cons, List.count_cons_self]
                omega
          · rintro (⟨hidx, _⟩ | ⟨k, b', hk, hidx, hP⟩)
            · exact Or.inl hidx
            · refine Or.inr ⟨k, b', hk, hidx, ?_⟩
              rcases hP with h | h
              · exact Or.inl h
              · refine Or.inr ?_
                simp only [List.take_succ_cons, List.count_cons_self] at h
                omega
    · simp only [splitFold, if_neg hb]
      have ihm := ih (i0 + 1) j0
      have hcount : ∀ k, ((b :: rest).take (k + 1)).count maj =
          (rest.take k).count maj := by
        intro k
        simp only [List.take_succ_cons, List.count_cons]
        simp [hb]
      constructor
      · rw [List.mem_cons, ihm.1, hsplit
          (fun k b' => b' ≠ maj ∨ (j0 + ((b :: rest).take k).count maj) % 2 = 0)]
        constructor
        · rintro (h | ⟨k, b', hk, hidx, hP⟩)
          · exact Or.inl ⟨h, Or.inl hb⟩
          · refine Or.inr ⟨k, b', hk, hidx, ?_⟩
            rcases hP with h | h
            · exact Or.inl h
            · exact Or.inr (by rw [hcount k]; exact h)
        · rintro (⟨hidx, _⟩ | ⟨k, b', hk, hidx, hP⟩)
          · exact Or.inl hidx
          · refine Or.inr ⟨k, b', hk, hidx, ?_⟩
            rcases hP with h | h
            · exact Or.inl h
            · exact Or.inr (by rw [hcount k] at h; exact h)
      · rw [List.mem_cons, ihm.2, hsplit
          (fun k b' => b' ≠ maj ∨ (j0 + ((b :: rest).take k).count maj) % 2 = 1)]
        constructor
        · rintro (h | ⟨k, b', hk, hidx, hP⟩)
          · exact Or.inl ⟨h, Or.inl hb⟩
          · refine Or.inr ⟨k, b', hk, hidx, ?_⟩
            rcases hP with h | h
            · exact Or.inl h
            · exact Or.inr (by rw [hcount k]; exact h)
        · rintro (⟨hidx, _⟩ | ⟨k, b', hk, hidx, hP⟩)
          · exact Or.inl hidx
          · refine Or.inr ⟨k, b', hk, hidx, ?_⟩
            rcases hP with h | h
            · exact Or.inl h
            · exact Or.inr (by rw [hcount k] at h; exact h)

/-- Counterexample for C4: a target with two positives and three
negatives has at least 2 positives, so the claim demands an Or-split,
but `find_split` splits the majority class and returns `And`. -/
theorem find_split_counterexample :
    (find_split [true, true, false, false, false]).map (fun p => p.1) =
        some LtlBinaryOp.and ∧
      LtlBinaryOp.and ≠ LtlBinaryOp.or := by
  constructor
  · rfl
  · intro h
    cases h

/-- C4 (amended): `find_split` returns `none` iff the target has at
most one positive and at most one negative; otherwise it returns an
Or-split when the positives strictly outnumber the negatives and an
And-split otherwise, the majority-class indices alternate between left
and right (even-ranked left, odd-ranked right) and the minority-class
indices appear in both sides. -/
theorem find_split_spec (target : List Bool) :
    (find_split target = none ↔ nbPos target ≤ 1 ∧ nbNeg target ≤ 1) ∧
      ∀ op l r, find_split target = some (op, l, r) →
        op = (if nbPos target > nbNeg target then LtlBinaryOp.or
          else LtlBinaryOp.and) ∧
        ∀ k b, target.get? k = some b →
          (b ≠ majClass target → k ∈ l ∧ k ∈ r) ∧
          (b = majClass target →
            ((k ∈ l ↔ (target.take k).count (majClass target) % 2 = 0) ∧
              (k ∈ r ↔ (target.take k).count (majClass target) % 2 = 1))) := by
  constructor
  · unfold find_split
    by_cases hc : nbPos target ≤ 1 ∧ nbNeg target ≤ 1
    · simp [hc]
    · simp [hc]
  · intro op l r h
    unfold find_split at h
    by_cases hc : nbPos target ≤ 1 ∧ nbNeg target ≤ 1
    · rw [if_pos hc] at h
      cases h
    · rw [if_neg hc] at h
      simp only [Option.some.injEq, Prod.mk.injEq] at h
      obtain ⟨hop, hl, hr⟩ := h
      refine ⟨hop.symm, ?_⟩
      intro k b hk
      have hmem := splitFold_mem (majClass target) target 0 0 k
      constructor
      · intro hbm
        constructor
        · rw [← hl]
          exact hmem.1.mpr ⟨k, b, hk, by omega, Or.inl hbm⟩
        · rw [← hr]
          exact hmem.2.mpr ⟨k, b, hk, by omega, Or.inl hbm⟩
      · intro hbm
        subst hbm
        constructor
        · rw [← hl, hmem.1]
          constructor
          · rintro ⟨k', b', hk', hidx, hcond⟩
            have hkk : k' = k := by omega
            subst hkk
            rw [hk] at hk'
            injection hk' with hbb
            subst hbb
            rcases hcond with h | h
            · exact absurd rfl h
            · simpa using h
          · intro h
            exact ⟨k, majClass target, hk, by omega,
              Or.inr (by simpa using h)⟩
        · rw [← hr, hmem.2]
          constructor
          · rintro ⟨k', b', hk', hidx, hcond⟩
            have hkk : k' = k := by omega
            subst hkk
            rw [hk] at hk'
            injection hk' with hbb
            subst hbb
            rcases hcond with h | h
            · exact absurd rfl h
            · simpa using h
          · intro h
            exact ⟨k, majClass target, hk, by omega,
              Or.inr (by simpa using h)⟩

/-- Witness for C4 (amended) at the target `[true, false, true,
true]`: three positives, one negative, so an Or-split. -/
theorem find_split_spec_witness :
    ((find_split [true, false, true, true] = none ↔
        nbPos [true, false, true, true] ≤ 1 ∧
          nbNeg [true, false, true, true] ≤ 1) ∧
      ∀ op l r, find_split [true, false, true, true] = some (op, l, r) →
        op = (if nbPos [true, false, true, true] >
            nbNeg [true, false, true, true] then LtlBinaryOp.or
          else LtlBinaryOp.and) ∧
        ∀ k b, (List.get? [true, false, true, true] k) = some b →
          (b ≠ majClass [true, false, true, true] → k ∈ l ∧ k ∈ r) ∧
          (b = majClass [true, false, true, true] →
            ((k ∈ l ↔
              (List.take k [true, false, true, true]).count
                  (majClass [true, false, true, true]) % 2 = 0) ∧
              (k ∈ r ↔
                (List.take k [true, false, true, true]).count
                  (majClass [true, false, true, true]) % 2 = 1)))) :=
  find_split_spec [true, false, true, true]

theorem alookup_cons_self {α : Type} (m : List (Nat × α)) (k : Nat) (v : α) :
    alookup ((k, v) :: m) k = some v := by
  simp [alookup, List.find?]

theorem alookup_cons_ne {α : Type} (m : List (Nat × α)) (k k1 : Nat)
    (v1 : α) (h : (k1 == k) = false) :
    alookup ((k1, v1) :: m) k = alookup m k := by
  simp [alookup, List.find?, h]

theorem alookup_aupdate_self {α : Type} (m : List (Nat × α)) (k : Nat)
    (v : α) (g : α) (h : alookup m k = some g) :
    alookup (aupdate m k v) k = some v := by
  induction m with
  | nil => simp [alookup] at h
  | cons p rest ih =>
    rcases p with ⟨k1, v1⟩
    by_cases hp : k1 = k
    · subst hp
      simp [alookup, aupdate, List.find?]
    · have hne : (k1 == k) = false := by simpa using hp
      have hupd : aupdate ((k1, v1) :: rest) k v =
          (k1, v1) :: aupdate rest k v := by
        simp only [aupdate, List.map_cons, hne, Bool.false_eq_true, if_false]
      rw [hupd, alookup_cons_ne _ _ _ _ hne]
      rw [alookup_cons_ne _ _ _ _ hne] at h
      exact ih h

/-- Counterexample for C2: a full `BeamSearchCache` line of width 1
holding a formula with two satisfied traces; pushing a non-dominated
formula with one satisfied trace returns `true`, yet the overflow
eviction removes the pushed formula itself and deletes its hash entry,
so `get(hashed(f))` afterwards returns `none`. -/
theorem beam_push_get_counterexample :
    ((BeamCacheM.push ⟨[(1, ⟨1, 1, ⟨3⟩⟩)], [[⟨1, 1, ⟨3⟩⟩]], 1⟩ 0
        ⟨2, 1, ⟨4⟩⟩).1 = true) ∧
      ((BeamCacheM.push ⟨[(1, ⟨1, 1, ⟨3⟩⟩)], [[⟨1, 1, ⟨3⟩⟩]], 1⟩ 0
        ⟨2, 1, ⟨4⟩⟩).2.get 2 = none) := by
  constructor
  · rfl
  · rfl

/-- C2 (amended): after a successful `push(f)`, `get(hashed(f))`
returns a formula whose hash equals `hashed(f)` — unconditionally for
`LtlCache`, `BoolCache` and `ScCache`, and for `BeamSearchCache`
provided the line holds fewer than `max_line_size` entries at the time
of the push; on a full line the overflow eviction may remove the
pushed formula itself (when it is the least dense), leaving
`get(hashed(f)) = none`. -/
theorem cache_push_get (cL : LtlCacheM) (cB : BoolCacheM) (cBe : BeamCacheM)
    (cS : ScCacheM) (s : Nat) (f : MForm)
    (hsL : s < cL.lines.length) (hsB : s < cB.lines.length) :
    ((cL.push s f).1 = true →
        ∃ g, (cL.push s f).2.get f.hash = some g ∧ g.hash = f.hash) ∧
      ((cB.push s f).1 = true →
        ∃ g, (cB.push s f).2.get f.hash = some g ∧ g.hash = f.hash) ∧
      ((cS.push f).1 = true →
        ∃ g, (cS.push f).2.get f.hash = some g ∧ g.hash = f.hash) ∧
      ((cBe.lines.getD s []).length < cBe.max_line_size →
        (cBe.push s f).1 = true →
        ∃ g, (cBe.push s f).2.get f.hash = some g ∧ g.hash = f.hash) := by
  refine ⟨?_, ?_, ?_, ?_⟩
  · intro hp
    have hm : alookup cL.hash_to_line f.hash = none := by
      cases hx : alookup cL.hash_to_line f.hash with
      | none => rfl
      | some g => unfold LtlCacheM.push at hp; rw [hx] at hp; simp at hp
    have hpush : (cL.push s f).2 =
        ⟨(f.hash, (s, (cL.lines.getD s []).length)) :: cL.hash_to_line,
          cL.lines.set s ((cL.lines.getD s []) ++ [f])⟩ := by
      unfold LtlCacheM.push
      rw [hm]
    rw [hpush]
    refine ⟨f, ?_, rfl⟩
    unfold LtlCacheM.get
    rw [alookup_cons_self]
    simp only [Option.some_bind]
    rw [List.get?_set_eq_of_lt _ hsL]
    simp only [Option.some_bind]
    exact List.get?_concat_length _ _
  · intro hp
    have hdom : cB.dominated s f = false := by
      cases hx : cB.dominated s f with
      | false => rfl
      | true => unfold BoolCacheM.push at hp; rw [hx] at hp; simp at hp
    have hm : alookup cB.hash_to_line f.hash = none := by
      cases hx : alookup cB.hash_to_line f.hash with
      | none => rfl
      | some g =>
        unfold BoolCacheM.push at hp
        rw [hdom] at hp
        rw [hx] at hp
        simp at hp
    have hpush : ∃ bsv, (cB.push s f).2 =
        ⟨(f.hash, (s, (cB.lines.getD s []).length)) :: cB.hash_to_line,
          cB.lines.set s ((cB.lines.getD s []) ++ [f]), bsv, cB.k⟩ := by
      unfold BoolCacheM.push
      rw [hdom]
      simp only [Bool.false_eq_true, if_false]
      rw [hm]
      exact ⟨_, rfl⟩
    obtain ⟨bsv, hpush⟩ := hpush
    rw [hpush]
    refine ⟨f, ?_, rfl⟩
    unfold BoolCacheM.get
    rw [alookup_cons_self]
    simp only [Option.some_bind]
    rw [List.get?_set_eq_of_lt _ hsB]
    simp only [Option.some_bind]
    exact List.get?_concat_length _ _
  · intro hp
    cases hm : alookup cS.entries f.hash with
    | none =>
      unfold ScCacheM.push at hp
      rw [hm] at hp
      simp at hp
    | some g0 =>
      have hsz : g0.size > f.size := by
        by_contra hcon
        unfold ScCacheM.push at hp
        simp only [hm] at hp
        rw [if_neg hcon] at hp
        simp at hp
      have hpush : (cS.push f).2 = ⟨aupdate cS.entries f.hash f⟩ := by
        unfold ScCacheM.push
        simp only [hm]
        rw [if_pos hsz]
      rw [hpush]
      exact ⟨f, alookup_aupdate_self _ _ _ _ hm, rfl⟩
  · intro hlt hp
    have hdom : ((cBe.lines.getD s []).any
        (fun g => g.sv.dominates f.sv)) = false := by
      cases hx : (cBe.lines.getD s []).any (fun g => g.sv.dominates f.sv) with
      | false => rfl
      | true => unfold BeamCacheM.push at hp; rw [hx] at hp; simp at hp
    have hm : alookup cBe.entries f.hash = none := by
      cases hx : alookup cBe.entries f.hash with
      | none => rfl
      | some g =>
        unfold BeamCacheM.push at hp
        rw [hdom] at hp
        simp only [Bool.false_eq_true, if_false] at hp
        rw [hx] at hp
        simp at hp
    have hfull : ¬ ((f :: cBe.lines.getD s []).length >
        cBe.max_line_size) := by
      simp only [List.length_cons]
      omega
    have hpush : (cBe.push s f).2 =
        ⟨(f.hash, f) :: cBe.entries,
          cBe.lines.set s (f :: (cBe.lines.getD s [])),
          cBe.max_line_size⟩ := by
      unfold BeamCacheM.push
      rw [hdom]
      simp only [Bool.false_eq_true, if_false]
      rw [hm]
      simp only [if_neg hfull]
    rw [hpush]
    refine ⟨f, ?_, rfl⟩
    unfold BeamCacheM.get
    exact alookup_cons_self _ _ _

/-- Witness for C2 (amended) pushing `f` with hash 5 and size 2 into
concrete caches: single empty lines, beam width 2, and an `ScCache`
holding a size-3 formula with the same hash. -/
theorem cache_push_get_witness :
    ((0 : Nat) < (⟨[], [[]]⟩ : LtlCacheM).lines.length ∧
        (0 : Nat) < (⟨[], [[]], [[]], 2⟩ : BoolCacheM).lines.length) ∧
      (((LtlCacheM.push ⟨[], [[]]⟩ 0 ⟨5, 2, ⟨0⟩⟩).1 = true →
          ∃ g, (LtlCacheM.push ⟨[], [[]]⟩ 0 ⟨5, 2, ⟨0⟩⟩).2.get 5 = some g ∧
            g.hash = (⟨5, 2, ⟨0⟩⟩ : MForm).hash) ∧
        ((BoolCacheM.push ⟨[], [[]], [[]], 2⟩ 0 ⟨5, 2, ⟨0⟩⟩).1 = true →
          ∃ g, (BoolCacheM.push ⟨[], [[]], [[]], 2⟩ 0
              ⟨5, 2, ⟨0⟩⟩).2.get 5 = some g ∧
            g.hash = (⟨5, 2, ⟨0⟩⟩ : MForm).hash) ∧
        ((ScCacheM.push ⟨[(5, ⟨5, 3, ⟨0⟩⟩)]⟩ ⟨5, 2, ⟨0⟩⟩).1 = true →
          ∃ g, (ScCacheM.push ⟨[(5, ⟨5, 3, ⟨0⟩⟩)]⟩ ⟨5, 2, ⟨0⟩⟩).2.get 5 =
              some g ∧ g.hash = (⟨5, 2, ⟨0⟩⟩ : MForm).hash) ∧
        (((⟨[], [[]], 2⟩ : BeamCacheM).lines.getD 0 []).length <
            (⟨[], [[]], 2⟩ : BeamCacheM).max_line_size →
          (BeamCacheM.push ⟨[], [[]], 2⟩ 0 ⟨5, 2, ⟨0⟩⟩).1 = true →
          ∃ g, (BeamCacheM.push ⟨[], [[]], 2⟩ 0 ⟨5, 2, ⟨0⟩⟩).2.get 5 =
              some g ∧ g.hash = (⟨5, 2, ⟨0⟩⟩ : MForm).hash)) :=
  ⟨⟨by decide, by decide⟩,
    cache_push_get ⟨[], [[]]⟩ ⟨[], [[]], [[]], 2⟩ ⟨[], [[]], 2⟩
      ⟨[(5, ⟨5, 3, ⟨0⟩⟩)]⟩ 0 ⟨5, 2, ⟨0⟩⟩ (by decide) (by decide)⟩

/-- Counterexample for C3: pushing a formula with a fresh hash into an
empty `ScCache` stores the formula but the push returns `false`, while
the claim demands `true` for a newly accepted formula. -/
theorem sc_push_fresh_counterexample :
    (ScCacheM.push ⟨[]⟩ ⟨1, 2, ⟨0⟩⟩).1 = false ∧
      (ScCacheM.push ⟨[]⟩ ⟨1, 2, ⟨0⟩⟩).2.get 1 = some ⟨1, 2, ⟨0⟩⟩ :=
  ⟨rfl, rfl⟩

/-- C3 (amended): `LtlCache` line push returns `true` iff the hash is
fresh; `BoolCache` line push returns `true` iff the formula is neither
dominated nor a hash hit; `BeamSearchCache` line push returns `true`
iff the formula is neither dominated by the current line nor a hash
hit (even when the overflow eviction immediately removes it again);
`ScCache` push returns `true` iff it replaced an existing same-hash
entry of strictly larger stored size — pushing a fresh hash stores the
formula but returns `false`. -/
theorem push_return_contract (cL : LtlCacheM) (cB : BoolCacheM)
    (cBe : BeamCacheM) (cS : ScCacheM) (s : Nat) (f : MForm) :
    ((cL.push s f).1 = true ↔ alookup cL.hash_to_line f.hash = none) ∧
      ((cB.push s f).1 = true ↔
        (cB.dominated s f = false ∧
          alookup cB.hash_to_line f.hash = none)) ∧
      ((cBe.push s f).1 = true ↔
        (((cBe.lines.getD s []).any
            (fun g => g.sv.dominates f.sv)) = false ∧
          alookup cBe.entries f.hash = none)) ∧
      ((cS.push f).1 = true ↔
        (∃ g, alookup cS.entries f.hash = some g ∧ g.size > f.size)) := by
  refine ⟨?_, ?_, ?_, ?_⟩
  · unfold LtlCacheM.push
    cases hm : alookup cL.hash_to_line f.hash with
    | some g => simp
    | none => simp
  · unfold BoolCacheM.push
    by_cases hdom : cB.dominated s f
    · rw [if_pos hdom]
      simp [hdom]
    · rw [if_neg hdom]
      cases hm : alookup cB.hash_to_line f.hash with
      | some g => simp [hdom]
      | none => simpa using Bool.not_eq_true _ |>.mp hdom
  · unfold BeamCacheM.push
    by_cases hdom :
        ((cBe.lines.getD s []).any (fun g => g.sv.dominates f.sv)) = true
    · rw [if_pos hdom]
      constructor
      · intro h
        cases h
      · rintro ⟨h1, _⟩
        rw [hdom] at h1
        cases h1
    · rw [if_neg hdom]
      cases hm : alookup cBe.entries f.hash with
      | some g => simp [hdom]
      | none =>
        have hres : (if (f :: cBe.lines.getD s []).length >
              cBe.max_line_size then
            match popMinBy (fun g => g.sv.popcount)
                (f :: cBe.lines.getD s []) with
            | some rem =>
              (true, (⟨aremove ((f.hash, f) :: cBe.entries) rem.1.hash,
                cBe.lines.set s rem.2, cBe.max_line_size⟩ : BeamCacheM))
            | none => (true, ⟨(f.hash, f) :: cBe.entries,
                cBe.lines.set s (f :: cBe.lines.getD s []),
                cBe.max_line_size⟩)
          else (true, ⟨(f.hash, f) :: cBe.entries,
              cBe.lines.set s (f :: cBe.lines.getD s []),
              cBe.max_line_size⟩)).1 = true := by
          split
          · split <;> rfl
          · rfl
        simp only [hres]
        simpa using Bool.not_eq_true _ |>.mp hdom
  · cases hm : alookup cS.entries f.hash with
    | some g =>
      have hpush : cS.push f = if g.size > f.size then
          (true, (⟨aupdate cS.entries f.hash f⟩ : ScCacheM))
        else (false, cS) := by
        unfold ScCacheM.push
        rw [hm]
      rw [hpush]
      by_cases hsz : g.size > f.size
      · rw [if_pos hsz]
        simp only [true_iff]
        exact ⟨g, rfl, hsz⟩
      · rw [if_neg hsz]
        constructor
        · intro h
          cases h
        · rintro ⟨g', hg', hsz'⟩
          injection hg' with he
          subst he
          exact absurd hsz' hsz
    | none =>
      have hpush : cS.push f =
          (false, (⟨(f.hash, f) :: cS.entries⟩ : ScCacheM)) := by
        unfold ScCacheM.push
        rw [hm]
      rw [hpush]
      constructor
      · intro h
        cases h
      · rintro ⟨g', hg', _⟩
        cases hg'

/-- Witness for C3 (amended) at concrete caches: an empty `LtlCache`
line, an empty `BoolCache` line with budget 2, an empty beam of width
2, and an `ScCache` holding a size-3 entry under hash 5. -/
theorem push_return_contract_witness :
    ((LtlCacheM.push ⟨[], [[]]⟩ 0 ⟨5, 2, ⟨0⟩⟩).1 = true ↔
        alookup (⟨[], [[]]⟩ : LtlCacheM).hash_to_line 5 = none) ∧
      ((BoolCacheM.push ⟨[], [[]], [[]], 2⟩ 0 ⟨5, 2, ⟨0⟩⟩).1 = true ↔
        ((⟨[], [[]], [[]], 2⟩ : BoolCacheM).dominated 0 ⟨5, 2, ⟨0⟩⟩ = false ∧
          alookup (⟨[], [[]], [[]], 2⟩ : BoolCacheM).hash_to_line 5 =
            none)) ∧
      ((BeamCacheM.push ⟨[], [[]], 2⟩ 0 ⟨5, 2, ⟨0⟩⟩).1 = true ↔
        ((((⟨[], [[]], 2⟩ : BeamCacheM).lines.getD 0 []).any
            (fun g => g.sv.dominates (⟨0⟩ : SatVec))) = false ∧
          alookup (⟨[], [[]], 2⟩ : BeamCacheM).entries 5 = none)) ∧
      ((ScCacheM.push ⟨[(5, ⟨5, 3, ⟨0⟩⟩)]⟩ ⟨5, 2, ⟨0⟩⟩).1 = true ↔
        (∃ g, alookup (⟨[(5, ⟨5, 3, ⟨0⟩⟩)]⟩ : ScCacheM).entries 5 = some g ∧
          g.size > (⟨5, 2, ⟨0⟩⟩ : MForm).size)) :=
  push_return_contract ⟨[], [[]]⟩ ⟨[], [[]], [[]], 2⟩ ⟨[], [[]], 2⟩
    ⟨[(5, ⟨5, 3, ⟨0⟩⟩)]⟩ 0 ⟨5, 2, ⟨0⟩⟩


theorem getD_eq_get? {α : Type} (l : List (List α)) (n : Nat) :
    l.getD n [] = (l.get? n).getD [] := rfl

theorem getD_take_mem {α : Type} (l : List (List α)) (s' s : Nat)
    (hs : s' < s) (x : α) (hx : x ∈ l.getD s' []) :
    ∃ heap ∈ l.take s, x ∈ heap := by
  rw [getD_eq_get?] at hx
  cases hsome : l.get? s' with
  | none =>
    rw [hsome] at hx
    cases hx
  | some heap =>
    rw [hsome] at hx
    exact ⟨heap, List.get?_mem (by rw [List.get?_take hs, hsome]), hx⟩

theorem getD_append_nil {α : Type} (l : List (List α)) (s' : Nat) (x : α)
    (hx : x ∈ (l ++ [[]]).getD s' []) : x ∈ l.getD s' [] := by
  rw [getD_eq_get?] at hx
  rw [getD_eq_get?]
  by_cases hlen : s' < l.length
  · rwa [List.get?_append hlen] at hx
  · by_cases heq : s' = l.length
    · subst heq
      rw [List.get?_concat_length] at hx
      cases hx
    · rw [List.get?_eq_none.mpr (by
        simp only [List.length_append, List.length_singleton]; omega)] at hx
      cases hx

theorem getD_set_ne {α : Type} (l : List (List α)) (i s' : Nat)
    (v : List α) (hne : s' ≠ i) : (l.set i v).getD s' [] = l.getD s' [] := by
  rw [getD_eq_get?, getD_eq_get?]
  rw [List.get?_set_ne _ _ (fun h => hne h.symm)]

theorem boolInvariant_applyOp (c : BoolCacheM) (op : CacheOp)
    (hinv : boolInvariant c) : boolInvariant (c.applyOp op) := by
  cases op with
  | newLine =>
    intro s line hline f hf s' hs' h hh
    unfold BoolCacheM.applyOp BoolCacheM.new_line at hline hh
    by_cases hs : s < c.lines.length
    · rw [List.get?_append hs] at hline
      exact hinv s line hline f hf s' hs' h (getD_append_nil _ _ _ hh)
    · by_cases heq : s = c.lines.length
      · subst heq
        rw [List.get?_concat_length] at hline
        injection hline with he
        subst he
        cases hf
      · rw [List.get?_eq_none.mpr (by
          simp only [List.length_append, List.length_singleton]; omega)]
          at hline
        cases hline
  | push f0 =>
    have happ : c.applyOp (.push f0) =
        (c.push (c.lines.length - 1) f0).2 := rfl
    rw [happ]
    by_cases hdom : c.dominated (c.lines.length - 1) f0
    · have hsame : (c.push (c.lines.length - 1) f0).2 = c := by
        unfold BoolCacheM.push
        rw [if_pos hdom]
      rw [hsame]
      exact hinv
    · cases hm : alookup c.hash_to_line f0.hash with
      | some g =>
        have hsame : (c.push (c.lines.length - 1) f0).2 = c := by
          unfold BoolCacheM.push
          rw [if_neg hdom, hm]
        rw [hsame]
        exact hinv
      | none =>
        obtain ⟨bsv, hstate⟩ : ∃ bsv, (c.push (c.lines.length - 1) f0).2 =
            ⟨(f0.hash, (c.lines.length - 1,
                (c.lines.getD (c.lines.length - 1) []).length)) ::
              c.hash_to_line,
              c.lines.set (c.lines.length - 1)
                ((c.lines.getD (c.lines.length - 1) []) ++ [f0]),
              c.best_sv.set (c.lines.length - 1) bsv, c.k⟩ := by
          unfold BoolCacheM.push
          rw [if_neg hdom, hm]
          exact ⟨_, rfl⟩
        rw [hstate]
        intro s line hline f hf s' hs' h hh
        dsimp only at hline hh
        by_cases hsq : s = c.lines.length - 1
        · subst hsq
          have hslt : s' ≠ c.lines.length - 1 := by omega
          rw [getD_set_ne _ _ _ _ hslt] at hh
          have hlt : c.lines.length - 1 < c.lines.length := by
            by_contra hcon
            rw [List.get?_eq_none.mpr (by
              rw [List.length_set]; omega)] at hline
            cases hline
          rw [List.get?_set_eq_of_lt _ hlt] at hline
          injection hline with he
          subst he
          rcases List.mem_append.mp hf with hfo | hfn
          · have hold : c.lines.get? (c.lines.length - 1) =
                some (c.lines.getD (c.lines.length - 1) []) := by
              rw [getD_eq_get?]
              cases hx : c.lines.get? (c.lines.length - 1) with
              | none => rw [List.get?_eq_none] at hx; omega
              | some v => rfl
            exact hinv _ _ hold f hfo s' hs' h hh
          · have hfeq : f = f0 := by simpa using hfn
            subst hfeq
            unfold BoolCacheM.dominated at hdom
            have hdom2 := (Bool.or_eq_false_iff.mp
              (Bool.not_eq_true _ |>.mp hdom)).2
            obtain ⟨heap, hheap, hx⟩ :=
              getD_take_mem c.best_sv s' (c.lines.length - 1)
                (by omega) h hh
            rw [List.any_eq_false] at hdom2
            have hno := hdom2 heap hheap
            exact Bool.eq_false_iff.mpr
              (fun hcon => hno (List.any_eq_true.mpr ⟨h, hx, hcon⟩))
        · rw [List.get?_set_ne _ _ (fun he => hsq he.symm)] at hline
          have hslen : s < c.lines.length := by
            by_contra hcon
            rw [List.get?_eq_none.mpr (by omega)] at hline
            cases hline
          have hslt : s' ≠ c.lines.length - 1 := by omega
          rw [getD_set_ne _ _ _ _ hslt] at hh
          exact hinv s line hline f hf s' hs' h hh

theorem boolInvariant_runOps (kk : Nat) (ops : List CacheOp) :
    boolInvariant ((BoolCacheM.new kk).runOps ops) := by
  have hstart : boolInvariant (BoolCacheM.new kk) := by
    intro s line hline
    cases hline
  have hgen : ∀ (l : List CacheOp) (c : BoolCacheM), boolInvariant c →
      boolInvariant (c.runOps l) := by
    intro l
    induction l with
    | nil => intro c hc; exact hc
    | cons op rest ih =>
      intro c hc
      exact ih _ (boolInvariant_applyOp c op hc)
  exact hgen ops _ hstart

theorem ibcInvariant_push (c : IBCacheM) (target cv : List Bool)
    (tree : FormulaTree) (m : Nat) (hinv : ibcInvariant c target)
    (hbound : ∀ s line, c.lines.get? s = some line → line ≠ [] → s ≤ m) :
    ibcInvariant (c.push cv target tree m).2 target ∧
      (∀ s line, (c.push cv target tree m).2.lines.get? s = some line →
        line ≠ [] → s ≤ m) := by
  by_cases hred : c.is_redundant (LongSv.from_cv_target cv target m)
  · have hsame : (c.push cv target tree m).2 = c := by
      unfold IBCacheM.push
      rw [if_pos hred]
    rw [hsame]
    exact ⟨hinv, hbound⟩
  · obtain ⟨bsv, hstate⟩ : ∃ bsv, (c.push cv target tree m).2 =
        ⟨((LongSv.from_cv_target cv target m).sv, tree) :: c.hash_cache,
          c.lines.set m ((c.lines.getD m []) ++ [⟨cv, tree, m⟩]),
          c.best_sv.set m bsv, c.k⟩ := by
      unfold IBCacheM.push
      rw [if_neg hred]
      exact ⟨_, rfl⟩
    rw [hstate]
    constructor
    · intro s line hline e he s' hs' l2 hl2
      dsimp only at hline hl2
      by_cases hsq : s = m
      · subst hsq
        have hlt : s < c.lines.length := by
          by_contra hcon
          rw [List.get?_eq_none.mpr (by rw [List.length_set]; omega)]
            at hline
          cases hline
        rw [List.get?_set_eq_of_lt _ hlt] at hline
        injection hline with heq
        subst heq
        have hslt : s' ≠ s := by omega
        rw [getD_set_ne _ _ _ _ hslt] at hl2
        rcases List.mem_append.mp he with heo | hen
        · have hold : c.lines.get? s = some (c.lines.getD s []) := by
            rw [getD_eq_get?]
            cases hx : c.lines.get? s with
            | none => rw [List.get?_eq_none] at hx; omega
            | some v => rfl
          exact hinv _ _ hold e heo s' hs' l2 hl2
        · have heq2 : e = ⟨cv, tree, s⟩ := by simpa using hen
          subst heq2
          unfold IBCacheM.is_redundant at hred
          have hred2 := (Bool.or_eq_false_iff.mp
            (Bool.not_eq_true _ |>.mp hred)).2
          obtain ⟨heap, hheap, hx⟩ :=
            getD_take_mem c.best_sv s' _ hs' l2 hl2
          rw [List.any_eq_false] at hred2
          have hno := hred2 heap hheap
          exact Bool.eq_false_iff.mpr
            (fun hcon => hno (List.any_eq_true.mpr ⟨l2, hx, hcon⟩))
      · rw [List.get?_set_ne _ _ (fun he2 => hsq he2.symm)] at hline
        have hsle : s ≤ m := hbound s line hline (List.ne_nil_of_mem he)
        have hslt : s' ≠ m := by omega
        rw [getD_set_ne _ _ _ _ hslt] at hl2
        exact hinv s line hline e he s' hs' l2 hl2
    · intro s line hline hne
      dsimp only at hline
      by_cases hsq : s = m
      · omega
      · rw [List.get?_set_ne _ _ (fun he2 => hsq he2.symm)] at hline
        exact hbound s line hline hne

theorem ibcInvariant_pushAll (target : List Bool)
    (xs : List (List Bool × FormulaTree × Nat)) :
    ∀ (c : IBCacheM), ibcInvariant c target →
      (∀ s line, c.lines.get? s = some line → line ≠ [] →
        ∀ x ∈ xs, s ≤ x.2.2) →
      List.Pairwise (fun a b => a.2.2 ≤ b.2.2) xs →
      ibcInvariant (c.pushAll target xs) target := by
  induction xs with
  | nil =>
    intro c hinv _ _
    exact hinv
  | cons x rest ih =>
    intro c hinv hbound hpair
    have hb0 : ∀ s line, c.lines.get? s = some line → line ≠ [] →
        s ≤ x.2.2 := by
      intro s line hline hne
      exact hbound s line hline hne x (List.mem_cons_self _ _)
    obtain ⟨hinv2, hbound2⟩ :=
      ibcInvariant_push c target x.1 x.2.1 x.2.2 hinv hb0
    have hpair2 := List.pairwise_cons.mp hpair
    have hbound3 : ∀ s line,
        (c.push x.1 target x.2.1 x.2.2).2.lines.get? s = some line →
        line ≠ [] → ∀ y ∈ rest, s ≤ y.2.2 := by
      intro s line hline hne y hy
      exact le_trans (hbound2 s line hline hne) (hpair2.1 y hy)
    have hfold : c.pushAll target (x :: rest) =
        ((c.push x.1 target x.2.1 x.2.2).2).pushAll target rest := rfl
    rw [hfold]
    exact ih _ hinv2 hbound3 hpair2.2

/-- Counterexample for C5: with `k = 2`, push a formula with
satisfiability vector `100` and then one with `110` into the same
`BoolCache` line. Both are stored, the second is tracked, has equal
size, and strictly dominates the first — so a stored formula is
strictly dominated by a tracked stored formula of equal (hence `≤`)
size. -/
theorem boolcache_domination_counterexample :
    ((BoolCacheM.runOps (BoolCacheM.new 2)
        [.newLine, .push ⟨10, 0, ⟨1⟩⟩, .push ⟨11, 0, ⟨3⟩⟩]).lines.get? 0 =
      some [⟨10, 0, ⟨1⟩⟩, ⟨11, 0, ⟨3⟩⟩]) ∧
      ((⟨⟨3⟩, 11⟩ : SvHash) ∈ (BoolCacheM.runOps (BoolCacheM.new 2)
        [.newLine, .push ⟨10, 0, ⟨1⟩⟩,
          .push ⟨11, 0, ⟨3⟩⟩]).best_sv.getD 0 []) ∧
      SatVec.dominates ⟨3⟩ ⟨1⟩ = true ∧ (⟨3⟩ : SatVec) ≠ (⟨1⟩ : SatVec) ∧
      (⟨11, 0, ⟨3⟩⟩ : MForm).size ≤ (⟨10, 0, ⟨1⟩⟩ : MForm).size := by
  refine ⟨rfl, ?_, rfl, by decide, by decide⟩
  decide

/-- C5 (amended): after any sequence of `new_line`/`push` operations
on a `BoolCache`, and after any non-decreasing-size push sequence on
an `InitialBoolCache` (the order used by `from_ltl_cache`, `reduce`
and `split`), no stored formula is dominated — strictly or not — by a
tracked formula of *strictly smaller* size. Same-size stored formulas
may still strictly dominate earlier ones, as pushes only test
domination against formulas already present. -/
theorem cache_no_smaller_size_domination (kk nl : Nat)
    (ops : List CacheOp) (target : List Bool)
    (xs : List (List Bool × FormulaTree × Nat))
    (hmono : List.Pairwise (fun a b => a.2.2 ≤ b.2.2) xs) :
    boolInvariant ((BoolCacheM.new kk).runOps ops) ∧
      ibcInvariant ((⟨[], List.replicate nl [], List.replicate nl [],
        kk⟩ : IBCacheM).pushAll target xs) target := by
  refine ⟨boolInvariant_runOps kk ops, ?_⟩
  apply ibcInvariant_pushAll
  · intro s line hline e he s' hs' l2 hl2
    have hnil : line = [] :=
      List.eq_of_mem_replicate (List.get?_mem hline)
    subst hnil
    cases he
  · intro s line hline hne
    exact absurd (List.eq_of_mem_replicate (List.get?_mem hline)) hne
  · exact hmono

/-- Witness for C5 (amended) at `k = 2`, one line, the two concrete
pushes of the counterexample state, and a single promotion-cache
push. -/
theorem cache_no_smaller_size_domination_witness :
    List.Pairwise (fun (a : List Bool × FormulaTree × Nat)
        (b : List Bool × FormulaTree × Nat) => a.2.2 ≤ b.2.2)
      [([true], FormulaTree.atom ⟨("p"), PredicateForm.positive 0⟩, 1)] ∧
      (boolInvariant ((BoolCacheM.new 2).runOps
          [.newLine, .push ⟨10, 0, ⟨1⟩⟩, .push ⟨11, 0, ⟨3⟩⟩]) ∧
        ibcInvariant ((⟨[], List.replicate 2 [], List.replicate 2 [],
          2⟩ : IBCacheM).pushAll [true]
            [([true], FormulaTree.atom ⟨("p"), PredicateForm.positive 0⟩,
              1)]) [true]) :=
  ⟨List.pairwise_singleton _ _,
    cache_no_smaller_size_domination 2 2
      [.newLine, .push ⟨10, 0, ⟨1⟩⟩, .push ⟨11, 0, ⟨3⟩⟩] [true]
      [([true], FormulaTree.atom ⟨("p"), PredicateForm.positive 0⟩, 1)]
      (List.pairwise_singleton _ _)⟩

theorem eval_eq_map (f : FormulaTree) (traces : List Trace) :
    f.eval traces = traces.map f.evalT := by
  induction f with
  | atom p =>
    rcases p with ⟨nm, pf⟩
    cases pf with
    | positive i => rfl
    | negative i => rfl
  | unaryNode op child ih =>
    show (FormulaTree.eval child traces).map (LtlUnaryOp.applySeq op) = _
    rw [ih, List.map_map]
    rfl
  | binaryNode op l r ihl ihr =>
    show ((FormulaTree.eval l traces).zip (FormulaTree.eval r traces)).map
      (fun p => LtlBinaryOp.applySeq op p.1 p.2) = _
    rw [ihl, ihr, List.zip_map', List.map_map]
    rfl

theorem acceptedVec_eval (f : FormulaTree) (traces : List Trace) :
    acceptedVec (f.eval traces) =
      traces.map (fun t => (f.evalT t).accepts) := by
  rw [acceptedVec, eval_eq_map, List.map_map]
  rfl

theorem map_eq_map_mem {α β : Type} (g1 g2 : α → β) :
    ∀ (l : List α), l.map g1 = l.map g2 → ∀ x ∈ l, g1 x = g2 x := by
  intro l
  induction l with
  | nil => intro _ x hx; cases hx
  | cons a rest ih =>
    intro h x hx
    simp only [List.map_cons, List.cons.injEq] at h
    rcases List.mem_cons.mp hx with hx2 | hx2
    · subst hx2
      exact h.1
    · exact ih h.2 x hx2

theorem accepts_testBit (s : CharSeq) : s.accepts = s.values.testBit 0 := by
  unfold CharSeq.accepts
  rw [Nat.and_one_is_mod, Nat.testBit_zero]
  rcases Nat.mod_two_eq_zero_or_one s.values with h | h <;> rw [h] <;> rfl

theorem accepts_bitor (a b : CharSeq) :
    (a.bitor b).accepts = (a.accepts || b.accepts) := by
  rw [accepts_testBit, accepts_testBit, accepts_testBit]
  exact Nat.testBit_lor _ _ _

theorem accepts_bitand (a b : CharSeq) :
    (a.bitand b).accepts = (a.accepts && b.accepts) := by
  rw [accepts_testBit, accepts_testBit, accepts_testBit]
  exact Nat.testBit_land _ _ _

theorem getD_get?_lt {α : Type} (l : List α) (i : Nat) (d : α)
    (hi : i < l.length) : l.get? i = some (l.getD i d) := by
  unfold List.getD
  cases hx : l.get? i with
  | none => rw [List.get?_eq_none] at hx; omega
  | some v => rfl

theorem splitFold_mem_lt (maj : Bool) (target : List Bool) :
    (∀ i ∈ (splitFold maj target 0 0).1, i < target.length) ∧
      (∀ i ∈ (splitFold maj target 0 0).2, i < target.length) := by
  constructor
  · intro i hi
    obtain ⟨k, b, hk, hik, _⟩ := (splitFold_mem maj target 0 0 i).1.mp hi
    have : k < target.length := by
      by_contra hcon
      rw [List.get?_eq_none.mpr (by omega)] at hk
      cases hk
    omega
  · intro i hi
    obtain ⟨k, b, hk, hik, _⟩ := (splitFold_mem maj target 0 0 i).2.mp hi
    have : k < target.length := by
      by_contra hcon
      rw [List.get?_eq_none.mpr (by omega)] at hk
      cases hk
    omega

theorem splitFold_minority_mem (maj : Bool) (target : List Bool) (i : Nat)
    (b : Bool) (hget : target.get? i = some b) (hb : b ≠ maj) :
    i ∈ (splitFold maj target 0 0).1 ∧ i ∈ (splitFold maj target 0 0).2 :=
  ⟨(splitFold_mem maj target 0 0 i).1.mpr ⟨i, b, hget, by omega, Or.inl hb⟩,
    (splitFold_mem maj target 0 0 i).2.mpr
      ⟨i, b, hget, by omega, Or.inl hb⟩⟩

theorem find_split_some_parts (target : List Bool) (op : LtlBinaryOp)
    (l r : List Nat) (h : find_split target = some (op, l, r)) :
    op = (if nbPos target > nbNeg target then LtlBinaryOp.or
        else LtlBinaryOp.and) ∧
      l = (splitFold (majClass target) target 0 0).1 ∧
      r = (splitFold (majClass target) target 0 0).2 ∧
      ¬(nbPos target ≤ 1 ∧ nbNeg target ≤ 1) := by
  unfold find_split at h
  by_cases hc : nbPos target ≤ 1 ∧ nbNeg target ≤ 1
  · rw [if_pos hc] at h
    cases h
  · rw [if_neg hc] at h
    simp only [Option.some.injEq, Prod.mk.injEq] at h
    exact ⟨h.1.symm, h.2.1.symm, h.2.2.symm, hc⟩

theorem rightIndices_mem_iff (op : LtlBinaryOp) (solved target : List Bool)
    (i : Nat) :
    i ∈ rightIndices op solved target ↔
      ∃ b1 b2, solved.get? i = some b1 ∧ target.get? i = some b2 ∧
        (match op with
          | .or => (!b2 || !b1)
          | .and => (b2 || b1)
          | .until => false) = true := by
  unfold rightIndices
  rw [List.mem_filterMap]
  constructor
  · rintro ⟨p, hp, hfn⟩
    rw [List.mem_enum_iff_get?] at hp
    obtain ⟨h1, h2⟩ :
        solved.get? p.1 = some p.2.1 ∧ target.get? p.1 = some p.2.2 :=
      (List.get?_zip_eq_some solved target p.2 p.1).mp hp
    cases op
    · by_cases hcond : (!p.2.2 || !p.2.1) = true
      · rw [if_pos hcond] at hfn
        injection hfn with he
        subst he
        exact ⟨p.2.1, p.2.2, h1, h2, hcond⟩
      · rw [if_neg hcond] at hfn
        cases hfn
    · by_cases hcond : (p.2.2 || p.2.1) = true
      · rw [if_pos hcond] at hfn
        injection hfn with he
        subst he
        exact ⟨p.2.1, p.2.2, h1, h2, hcond⟩
      · rw [if_neg hcond] at hfn
        cases hfn
    · cases hfn
  · rintro ⟨b1, b2, h1, h2, hcond⟩
    refine ⟨(i, (b1, b2)), ?_, ?_⟩
    · rw [List.mem_enum_iff_get?]
      exact (List.get?_zip_eq_some solved target (b1, b2) i).mpr ⟨h1, h2⟩
    · cases op
      · rw [if_pos hcond]
      · rw [if_pos hcond]
      · cases hcond

theorem nbNotSat_or_eq_zero (right : List Nat) (target : List Bool) :
    nbNotSat LtlBinaryOp.or right target = 0 ↔
      ∀ i ∈ right, target.getD i false = false := by
  unfold nbNotSat
  rw [List.length_eq_zero, List.filter_eq_nil]
  constructor
  · intro h i hi
    have := h i hi
    simpa using this
  · intro h i hi
    simpa using h i hi

theorem nbNotSat_and_eq_zero (right : List Nat) (target : List Bool) :
    nbNotSat LtlBinaryOp.and right target = 0 ↔
      ∀ i ∈ right, target.getD i false = true := by
  unfold nbNotSat
  rw [List.length_eq_zero, List.filter_eq_nil]
  constructor
  · intro h i hi
    have := h i hi
    simpa using this
  · intro h i hi
    simpa using h i hi

theorem cacheInv_push (c : IBCacheM) (tr : List Trace)
    (tgt cv : List Bool) (tree : FormulaTree) (size : Nat)
    (hinv : cacheInv c tr tgt)
    (hcv : cv = acceptedVec (tree.eval tr)) :
    cacheInv (c.push cv tgt tree size).2 tr tgt := by
  by_cases hred : c.is_redundant (LongSv.from_cv_target cv tgt size)
  · have hsame : (c.push cv tgt tree size).2 = c := by
      unfold IBCacheM.push
      rw [if_pos hred]
    rw [hsame]
    exact hinv
  · obtain ⟨bsv, hstate⟩ : ∃ bsv, (c.push cv tgt tree size).2 =
        ⟨((LongSv.from_cv_target cv tgt size).sv, tree) :: c.hash_cache,
          c.lines.set size ((c.lines.getD size []) ++ [⟨cv, tree, size⟩]),
          c.best_sv.set size bsv, c.k⟩ := by
      unfold IBCacheM.push
      rw [if_neg hred]
      exact ⟨_, rfl⟩
    rw [hstate]
    constructor
    · intro p hp
      dsimp only at hp
      rcases List.mem_cons.mp hp with hp2 | hp2
      · subst hp2
        dsimp only
        unfold LongSv.from_cv_target
        rw [hcv]
      · exact hinv.1 p hp2
    · intro line hline e he
      dsimp only at hline
      rcases List.mem_or_eq_of_mem_set hline with hl2 | hl2
      · exact hinv.2 line hl2 e he
      · subst hl2
        rcases List.mem_append.mp he with he2 | he2
        · cases hx : c.lines.get? size with
          | none =>
            rw [getD_eq_get?, hx] at he2
            cases he2
          | some v =>
            rw [getD_eq_get?, hx] at he2
            exact hinv.2 v (List.get?_mem hx) e he2
        · have : e = ⟨cv, tree, size⟩ := by simpa using he2
          subst this
          exact hcv

theorem eval_length (f : FormulaTree) (traces : List Trace) :
    (f.eval traces).length = traces.length := by
  rw [eval_eq_map, List.length_map]

theorem getD_map_lt {α β : Type} (l : List α) (f : α → β) (i : Nat)
    (d : α) (db : β) (hi : i < l.length) :
    (l.map f).getD i db = f (l.getD i d) := by
  show ((l.map f).get? i).getD db = f (l.getD i d)
  rw [List.get?_map, getD_get?_lt l i d hi]
  rfl

theorem zip_self_map_beq (l : List Bool) :
    (l.zip l).map (fun p => p.1 == p.2) = List.replicate l.length true := by
  induction l with
  | nil => rfl
  | cons a rest ih =>
    simp only [List.zip_cons_cons, List.map_cons, List.length_cons,
      List.replicate_succ, ih, beq_self_eq_true]

theorem zip_map_beq_eq {l1 l2 : List Bool}
    (hlen : l1.length = l2.length)
    (h : (l1.zip l2).map (fun q => q.1 == q.2) =
      List.replicate l2.length true) : l1 = l2 := by
  apply List.ext
  intro i
  by_cases hi : i < l2.length
  · cases h1 : l1.get? i with
    | none =>
      rw [List.get?_eq_none] at h1
      omega
    | some a =>
      cases h2 : l2.get? i with
      | none =>
        rw [List.get?_eq_none] at h2
        omega
      | some b =>
        have hz : (l1.zip l2).get? i = some (a, b) :=
          (List.get?_zip_eq_some l1 l2 (a, b) i).mpr ⟨h1, h2⟩
        have hm : (a, b) ∈ l1.zip l2 := List.get?_mem hz
        have hmm : ((a, b).1 == (a, b).2) ∈
            (l1.zip l2).map (fun q => q.1 == q.2) :=
          List.mem_map_of_mem (fun q => q.1 == q.2) hm
        rw [h] at hmm
        have hab : (a == b) = true := List.eq_of_mem_replicate hmm
        rw [eq_of_beq hab]
  · rw [List.get?_eq_none.mpr (by omega), List.get?_eq_none.mpr (by omega)]

theorem get_from_cv_correct (c : IBCacheM) (traces : List Trace)
    (target : List Bool) (f : FormulaTree)
    (hinv : cacheInv c traces target)
    (hlen : traces.length = target.length)
    (hget : c.get_from_cv target target = some f) :
    acceptedVec (f.eval traces) = target := by
  unfold IBCacheM.get_from_cv blookup at hget
  cases hfind : c.hash_cache.find?
      (fun p => p.1 == (LongSv.from_cv_target target target 0).sv) with
  | none =>
    rw [hfind] at hget
    cases hget
  | some p =>
    rw [hfind, Option.map_some'] at hget
    injection hget with hf
    subst hf
    have hmem : p ∈ c.hash_cache := List.mem_of_find?_eq_some hfind
    have hpred := List.find?_some hfind
    have hkey : p.1 = (LongSv.from_cv_target target target 0).sv :=
      eq_of_beq hpred
    have hinv1 := hinv.1 p hmem
    have hsv : (LongSv.from_cv_target target target 0).sv =
        List.replicate target.length true := zip_self_map_beq target
    rw [hinv1, hsv] at hkey
    have hlenA : (acceptedVec (FormulaTree.eval p.2 traces)).length =
        target.length := by
      rw [acceptedVec, List.length_map, eval_length, hlen]
    exact zip_map_beq_eq hlenA hkey

theorem cacheInv_foldl_entries (tr2 : List Trace) (tgt2 : List Bool)
    (g : BoolInfo → List Bool) :
    ∀ (l : List BoolInfo) (acc : IBCacheM), cacheInv acc tr2 tgt2 →
      (∀ e ∈ l, g e = acceptedVec (e.tree.eval tr2)) →
      cacheInv (l.foldl
        (fun acc2 e => (acc2.push (g e) tgt2 e.tree e.size).2) acc)
        tr2 tgt2 := by
  intro l
  induction l with
  | nil =>
    intro acc hacc _
    exact hacc
  | cons e rest ih =>
    intro acc hacc hl
    rw [List.foldl_cons]
    exact ih _ (cacheInv_push acc tr2 tgt2 (g e) e.tree e.size hacc
        (hl e (List.mem_cons_self e rest)))
      (fun x hx => hl x (List.mem_cons_of_mem e hx))

theorem cacheInv_foldl_lines (tr2 : List Trace) (tgt2 : List Bool)
    (g : BoolInfo → List Bool) :
    ∀ (ls : List (List BoolInfo)) (acc : IBCacheM),
      cacheInv acc tr2 tgt2 →
      (∀ line ∈ ls, ∀ e ∈ line, g e = acceptedVec (e.tree.eval tr2)) →
      cacheInv (ls.foldl (fun acc l => l.foldl
        (fun acc2 e => (acc2.push (g e) tgt2 e.tree e.size).2) acc) acc)
        tr2 tgt2 := by
  intro ls
  induction ls with
  | nil =>
    intro acc hacc _
    exact hacc
  | cons l rest ih =>
    intro acc hacc hls
    rw [List.foldl_cons]
    exact ih _ (cacheInv_foldl_entries tr2 tgt2 g l acc hacc
        (hls l (List.mem_cons_self l rest)))
      (fun x hx e he => hls x (List.mem_cons_of_mem l hx) e he)

theorem cacheInv_c0 (n k : Nat) (tr : List Trace) (tgt : List Bool) :
    cacheInv ⟨[], List.replicate n [], List.replicate n [], k⟩ tr tgt := by
  constructor
  · intro p hp
    cases hp
  · intro line hline e he
    have hl := List.eq_of_mem_replicate hline
    subst hl
    cases he

theorem cacheInv_reduce (c : IBCacheM) (traces : List Trace)
    (target : List Bool) (indices : List Nat)
    (hinv : cacheInv c traces target)
    (hidx : ∀ i ∈ indices, i < traces.length) :
    cacheInv (c.reduce indices target)
      (indices.map (fun i => traces.getD i ⟨[]⟩))
      (indices.map (fun i => target.getD i false)) := by
  have hentry : ∀ line ∈ c.lines, ∀ e ∈ line,
      (fun e2 : BoolInfo => indices.map (fun i => e2.cv.getD i false)) e =
        acceptedVec (e.tree.eval
          (indices.map (fun i => traces.getD i ⟨[]⟩))) := by
    intro line hline e he
    have hcv := hinv.2 line hline e he
    rw [acceptedVec_eval, List.map_map]
    apply List.map_congr_left
    intro i hi
    show e.cv.getD i false = (e.tree.evalT (traces.getD i ⟨[]⟩)).accepts
    rw [hcv, acceptedVec_eval]
    exact getD_map_lt traces _ i ⟨[]⟩ false (hidx i hi)
  exact cacheInv_foldl_lines
    (indices.map (fun i => traces.getD i ⟨[]⟩))
    (indices.map (fun i => target.getD i false))
    (fun e => indices.map (fun i => e.cv.getD i false))
    c.lines
    ⟨[], List.replicate c.lines.length [],
      List.replicate c.lines.length [], c.k⟩
    (cacheInv_c0 _ _ _ _) hentry

theorem solveSplit_correct
    (policy : IBCacheM → List Bool → Option FormulaTree)
    (hpol : ∀ cache tr tgt f, cacheInv cache tr tgt →
      tr.length = tgt.length → policy cache tgt = some f →
      acceptedVec (f.eval tr) = tgt) :
    ∀ fuel : Nat,
      (∀ traces cache target f, cacheInv cache traces target →
        traces.length = target.length →
        solveOrSplit policy fuel traces cache target = some f →
        acceptedVec (f.eval traces) = target) ∧
      (∀ traces cache target f, cacheInv cache traces target →
        traces.length = target.length →
        splitAndSolveNonOverlapping policy fuel traces cache target =
          some f →
        acceptedVec (f.eval traces) = target) := by
  intro fuel
  induction fuel with
  | zero =>
    constructor
    · intro traces cache target f _ _ h
      cases h
    · intro traces cache target f _ _ h
      cases h
  | succ n ih =>
    constructor
    · intro traces cache target f hinv hlen h
      have hu : solveOrSplit policy (n + 1) traces cache target =
          (match cache.get_from_cv target target with
          | some f0 => some f0
          | none =>
            if target.length > 128 then
              splitAndSolveNonOverlapping policy n traces cache target
            else
              match policy cache target with
              | some f0 => some f0
              | none =>
                splitAndSolveNonOverlapping policy n traces cache
                  target) := rfl
      rw [hu] at h
      cases hg : cache.get_from_cv target target with
      | some f0 =>
        simp only [hg] at h
        injection h with hf
        subst hf
        exact get_from_cv_correct cache traces target _ hinv hlen hg
      | none =>
        simp only [hg] at h
        by_cases h128 : target.length > 128
        · rw [if_pos h128] at h
          exact ih.2 traces cache target f hinv hlen h
        · rw [if_neg h128] at h
          cases hp : policy cache target with
          | some f0 =>
            simp only [hp] at h
            injection h with hf
            subst hf
            exact hpol cache traces target _ hinv hlen hp
          | none =>
            simp only [hp] at h
            exact ih.2 traces cache target f hinv hlen h
    · intro traces cache target f hinv hlen h
      have hu : splitAndSolveNonOverlapping policy (n + 1) traces cache
          target =
          (match find_split target with
          | none => none
          | some (op, left, _) =>
            let leftCache := cache.reduce left target
            let leftTarget := left.map (fun i => target.getD i false)
            let leftTraces := left.map (fun i => traces.getD i ⟨[]⟩)
            match solveOrSplit policy n leftTraces leftCache
                leftTarget with
            | none => none
            | some leftRes =>
              let solved := acceptedVec (leftRes.eval traces)
              let right := rightIndices op solved target
              if nbNotSat op right target = 0 then some leftRes
              else
                let rightCache := cache.reduce right target
                let rightTarget := right.map (fun i => target.getD i false)
                let rightTraces := right.map (fun i => traces.getD i ⟨[]⟩)
                match solveOrSplit policy n rightTraces rightCache
                    rightTarget with
                | none => none
                | some rightRes =>
                  some (FormulaTree.binaryNode op leftRes rightRes)) := rfl
      rw [hu] at h
      cases hfs : find_split target with
      | none =>
        simp only [hfs] at h
        cases h
      | some triple =>
        obtain ⟨op, left, right0⟩ := triple
        obtain ⟨hop, hleftEq, hrightEq0, hnontrivial⟩ :=
          find_split_some_parts target op left right0 hfs
        simp only [hfs] at h
        have hleftIdx : ∀ i ∈ left, i < traces.length := by
          intro i hi
          rw [hleftEq] at hi
          have := (splitFold_mem_lt (majClass target) target).1 i hi
          omega
        have hinvL := cacheInv_reduce cache traces target left hinv
          hleftIdx
        cases hleft : solveOrSplit policy n
            (List.map (fun i => traces.getD i ⟨[]⟩) left)
            (cache.reduce left target)
            (List.map (fun i => target.getD i false) left) with
        | none =>
          simp only [hleft] at h
          cases h
        | some leftRes =>
          simp only [hleft] at h
          have hlenL :
              (List.map (fun i => traces.getD i ⟨[]⟩) left).length =
                (List.map (fun i => target.getD i false) left).length := by
            rw [List.length_map, List.length_map]
          have hAccL := ih.1 _ _ _ leftRes hinvL hlenL hleft
          have hleftVal : ∀ i ∈ left,
              (leftRes.evalT (traces.getD i ⟨[]⟩)).accepts =
                target.getD i false := by
            intro i hi
            rw [acceptedVec_eval, List.map_map] at hAccL
            exact map_eq_map_mem _ _ left hAccL i hi
          have hsolvedlen : (acceptedVec (leftRes.eval traces)).length =
              target.length := by
            rw [acceptedVec, List.length_map, eval_length, hlen]
          have hsolved_get : ∀ i, i < target.length →
              (acceptedVec (leftRes.eval traces)).get? i =
                some ((leftRes.evalT (traces.getD i ⟨[]⟩)).accepts) := by
            intro i hi
            rw [acceptedVec_eval, List.get?_map,
              getD_get?_lt traces i ⟨[]⟩ (by omega)]
            rfl
          have htarget_get : ∀ i, i < target.length →
              target.get? i = some (target.getD i false) := by
            intro i hi
            exact getD_get?_lt target i false hi
          have hminorL : ∀ i b, target.get? i = some b →
              b ≠ majClass target → i ∈ left := by
            intro i b hgetb hb
            rw [hleftEq]
            exact (splitFold_minority_mem (majClass target) target i b
              hgetb hb).1
          by_cases hnb : nbNotSat op
              (rightIndices op (acceptedVec (leftRes.eval traces)) target)
              target = 0
          · rw [if_pos hnb] at h
            injection h with hf
            rw [← hf]
            apply List.ext
            intro i
            by_cases hi : i < target.length
            · rw [hsolved_get i hi, htarget_get i hi]
              refine congrArg some ?_
              by_cases hpn : nbPos target > nbNeg target
              · have hmaj : majClass target = true := by
                  unfold majClass
                  exact decide_eq_true hpn
                rw [if_pos hpn] at hop
                subst hop
                rw [nbNotSat_or_eq_zero] at hnb
                cases ht : target.getD i false
                · have hmemL : i ∈ left :=
                    hminorL i false (by rw [htarget_get i hi, ht])
                      (by rw [hmaj]; decide)
                  rw [hleftVal i hmemL, ht]
                · cases hL :
                      (leftRes.evalT (traces.getD i ⟨[]⟩)).accepts
                  · exfalso
                    have hmemR : i ∈ rightIndices LtlBinaryOp.or
                        (acceptedVec (leftRes.eval traces)) target := by
                      rw [rightIndices_mem_iff]
                      exact ⟨false, true, by rw [hsolved_get i hi, hL],
                        by rw [htarget_get i hi, ht], rfl⟩
                    have hcon := hnb i hmemR
                    rw [ht] at hcon
                    cases hcon
                  · rfl
              · have hmaj : majClass target = false := by
                  unfold majClass
                  exact decide_eq_false hpn
                rw [if_neg hpn] at hop
                subst hop
                rw [nbNotSat_and_eq_zero] at hnb
                cases ht : target.getD i false
                · cases hL :
                      (leftRes.evalT (traces.getD i ⟨[]⟩)).accepts
                  · rfl
                  · exfalso
                    have hmemR : i ∈ rightIndices LtlBinaryOp.and
                        (acceptedVec (leftRes.eval traces)) target := by
                      rw [rightIndices_mem_iff]
                      exact ⟨true, false, by rw [hsolved_get i hi, hL],
                        by rw [htarget_get i hi, ht], rfl⟩
                    have hcon := hnb i hmemR
                    rw [ht] at hcon
                    cases hcon
                · have hmemL : i ∈ left :=
                    hminorL i true (by rw [htarget_get i hi, ht])
                      (by rw [hmaj]; decide)
                  rw [hleftVal i hmemL, ht]
            · rw [List.get?_eq_none.mpr (by omega),
                List.get?_eq_none.mpr (by omega)]
          · rw [if_neg hnb] at h
            have hrightIdx : ∀ i ∈ rightIndices op
                (acceptedVec (leftRes.eval traces)) target,
                i < traces.length := by
              intro i hi
              obtain ⟨b1, b2, h1, h2, hcnd⟩ :=
                (rightIndices_mem_iff op _ target i).mp hi
              have hlt : i < target.length := by
                by_contra hcon
                rw [List.get?_eq_none.mpr (by omega)] at h2
                cases h2
              omega
            have hinvR := cacheInv_reduce cache traces target
              (rightIndices op (acceptedVec (leftRes.eval traces)) target)
              hinv hrightIdx
            cases hright : solveOrSplit policy n
                (List.map (fun i => traces.getD i ⟨[]⟩)
                  (rightIndices op (acceptedVec (leftRes.eval traces))
                    target))
                (cache.reduce
                  (rightIndices op (acceptedVec (leftRes.eval traces))
                    target) target)
                (List.map (fun i => target.getD i false)
                  (rightIndices op (acceptedVec (leftRes.eval traces))
                    target)) with
            | none =>
              simp only [hright] at h
              cases h
            | some rightRes =>
              simp only [hright] at h
              injection h with hf
              rw [← hf]
              have hlenR :
                  (List.map (fun i => traces.getD i ⟨[]⟩)
                    (rightIndices op
                      (acceptedVec (leftRes.eval traces)) target)).length =
                  (List.map (fun i => target.getD i false)
                    (rightIndices op
                      (acceptedVec (leftRes.eval traces))
                      target)).length := by
                rw [List.length_map, List.length_map]
              have hAccR := ih.1 _ _ _ rightRes hinvR hlenR hright
              have hrightVal : ∀ i ∈ rightIndices op
                  (acceptedVec (leftRes.eval traces)) target,
                  (rightRes.evalT (traces.getD i ⟨[]⟩)).accepts =
                    target.getD i false := by
                intro i hi
                rw [acceptedVec_eval, List.map_map] at hAccR
                exact map_eq_map_mem _ _ _ hAccR i hi
              rw [acceptedVec_eval]
              apply List.ext
              intro i
              by_cases hi : i < target.length
              · rw [List.get?_map, getD_get?_lt traces i ⟨[]⟩ (by omega),
                  Option.map_some', htarget_get i hi]
                refine congrArg some ?_
                show ((FormulaTree.binaryNode op leftRes rightRes).evalT
                    (traces.getD i ⟨[]⟩)).accepts = target.getD i false
                by_cases hpn : nbPos target > nbNeg target
                · have hmaj : majClass target = true := by
                    unfold majClass
                    exact decide_eq_true hpn
                  rw [if_pos hpn] at hop
                  subst hop
                  rw [show (FormulaTree.binaryNode LtlBinaryOp.or leftRes
                      rightRes).evalT (traces.getD i ⟨[]⟩) =
                      (leftRes.evalT (traces.getD i ⟨[]⟩)).bitor
                        (rightRes.evalT (traces.getD i ⟨[]⟩)) from rfl,
                    accepts_bitor]
                  cases ht : target.getD i false
                  · have hmemL : i ∈ left :=
                      hminorL i false (by rw [htarget_get i hi, ht])
                        (by rw [hmaj]; decide)
                    have hL := hleftVal i hmemL
                    rw [ht] at hL
                    have hmemR : i ∈ rightIndices LtlBinaryOp.or
                        (acceptedVec (leftRes.eval traces)) target := by
                      rw [rightIndices_mem_iff]
                      exact ⟨_, false, hsolved_get i hi,
                        by rw [htarget_get i hi, ht], rfl⟩
                    have hR := hrightVal i hmemR
                    rw [ht] at hR
                    rw [hL, hR]
                    rfl
                  · cases hL :
                        (leftRes.evalT (traces.getD i ⟨[]⟩)).accepts
                    · have hmemR : i ∈ rightIndices LtlBinaryOp.or
                          (acceptedVec (leftRes.eval traces)) target := by
                        rw [rightIndices_mem_iff]
                        exact ⟨false, true,
                          by rw [hsolved_get i hi, hL],
                          by rw [htarget_get i hi, ht], rfl⟩
                      have hR := hrightVal i hmemR
                      rw [ht] at hR
                      rw [hR]
                      rfl
                    · rfl
                · have hmaj : majClass target = false := by
                    unfold majClass
                    exact decide_eq_false hpn
                  rw [if_neg hpn] at hop
                  subst hop
                  rw [show (FormulaTree.binaryNode LtlBinaryOp.and leftRes
                      rightRes).evalT (traces.getD i ⟨[]⟩) =
                      (leftRes.evalT (traces.getD i ⟨[]⟩)).bitand
                        (rightRes.evalT (traces.getD i ⟨[]⟩)) from rfl,
                    accepts_bitand]
                  cases ht : target.getD i false
                  · cases hL :
                        (leftRes.evalT (traces.getD i ⟨[]⟩)).accepts
                    · rfl
                    · have hmemR : i ∈ rightIndices LtlBinaryOp.and
                          (acceptedVec (leftRes.eval traces)) target := by
                        rw [rightIndices_mem_iff]
                        exact ⟨true, false,
                          by rw [hsolved_get i hi, hL],
                          by rw [htarget_get i hi, ht], rfl⟩
                      have hR := hrightVal i hmemR
                      rw [ht] at hR
                      rw [hR]
                      rfl
                  · have hmemL : i ∈ left :=
                      hminorL i true (by rw [htarget_get i hi, ht])
                        (by rw [hmaj]; decide)
                    have hL := hleftVal i hmemL
                    rw [ht] at hL
                    have hmemR : i ∈ rightIndices LtlBinaryOp.and
                        (acceptedVec (leftRes.eval traces)) target := by
                      rw [rightIndices_mem_iff]
                      exact ⟨_, true, hsolved_get i hi,
                        by rw [htarget_get i hi, ht], rfl⟩
                    have hR := hrightVal i hmemR
                    rw [ht] at hR
                    rw [hL, hR]
                    rfl
              · rw [List.get?_eq_none.mpr
                    (by rw [List.length_map]; omega),
                  List.get?_eq_none.mpr (by omega)]

/-- C1: for every run of the meta driver (`solve_or_split` /
`split_and_solve_non_overlapping`, src/algos/meta/mod.rs) that returns
a formula — with any Boolean policy that only returns label-correct
formulas, which the promotion-cache invariant guarantees for the three
`BoolAlgoParams` policies — evaluating the returned `FormulaTree` on
the original input traces yields an accepted-vector equal to the
target label vector bit-for-bit. -/
theorem meta_driver_correct
    (policy : IBCacheM → List Bool → Option FormulaTree)
    (hpol : ∀ cache tr tgt f, cacheInv cache tr tgt →
      tr.length = tgt.length → policy cache tgt = some f →
      acceptedVec (f.eval tr) = tgt)
    (fuel : Nat) (traces : List Trace) (cache : IBCacheM)
    (target : List Bool) (f : FormulaTree)
    (hinv : cacheInv cache traces target)
    (hlen : traces.length = target.length)
    (h : solveOrSplit policy fuel traces cache target = some f) :
    acceptedVec (f.eval traces) = target :=
  (solveSplit_correct policy hpol fuel).1 traces cache target f hinv hlen h

/-- Witness for C1: a concrete run that answers from the promotion
cache returns a formula whose accepted-vector equals the target. -/
theorem meta_driver_correct_witness :
    acceptedVec ((FormulaTree.atom ⟨"p", PredicateForm.positive 0⟩).eval
      [⟨[⟨1, 1⟩]⟩]) = [true] :=
  meta_driver_correct (fun _ _ => none)
    (fun _ _ _ _ _ _ hcon => Option.noConfusion hcon) 1 [⟨[⟨1, 1⟩]⟩]
    ⟨[([true], FormulaTree.atom ⟨"p", PredicateForm.positive 0⟩)], [], [],
      0⟩ [true] (FormulaTree.atom ⟨"p", PredicateForm.positive 0⟩)
    (by
      constructor
      · intro p hp
        rcases List.mem_cons.mp hp with hp2 | hp2
        · subst hp2
          rfl
        · cases hp2
      · intro line hline e he
        cases hline)
    rfl rfl

/-- Counterexample for C6: with four unit-coverage formulas and an
or-like combination, the source's no-progress `break 'run` ends the
WHOLE run with an empty result vector, while the spec's
inner-loop-only abort would let the outer loop continue, select a
fresh seed and return a covering combination. -/
theorem sc_abort_counterexample :
    (aux_set_cover
        (fun a b => ⟨a.hash + b.hash, a.size + 1 + b.size,
          ⟨a.sv.values ||| b.sv.values⟩⟩)
        (fun f => if f.sv.values = 6 then 2 else 1) 2 5 10
        [⟨1, 1, ⟨4⟩⟩, ⟨2, 1, ⟨2⟩⟩, ⟨3, 1, ⟨1⟩⟩, ⟨4, 1, ⟨1⟩⟩]
        ⟨[]⟩).map Prod.fst = some [] ∧
      (aux_set_cover_spec
        (fun a b => ⟨a.hash + b.hash, a.size + 1 + b.size,
          ⟨a.sv.values ||| b.sv.values⟩⟩)
        (fun f => if f.sv.values = 6 then 2 else 1) 2 5 10
        [⟨1, 1, ⟨4⟩⟩, ⟨2, 1, ⟨2⟩⟩, ⟨3, 1, ⟨1⟩⟩, ⟨4, 1, ⟨1⟩⟩]
        ⟨[]⟩).map Prod.fst = some [⟨3, 3, ⟨6⟩⟩] :=
  ⟨rfl, rfl⟩

/-- C6: in `aux_set_cover` (src/algos/set_cover/aux.rs), when
combining the current best formula with a further formula yields no
increase of the coverage measure, the `break 'run` aborts the ENTIRE
run, not only the inner combination loop: the call returns exactly the
formulas accumulated so far, and the outer loop does not continue
selecting fresh seed formulas, regardless of the remaining pool or the
`max_nb_formulas` budget. -/
theorem sc_no_progress_aborts_run (comb : MForm → MForm → MForm)
    (satF : MForm → Nat) (targetSat maxNb fuel : Nat)
    (pool : List MForm) (best f : MForm) (res : List MForm)
    (cache : ScCacheM)
    (hlow : satF best < targetSat)
    (hne : pool.isEmpty = false)
    (hmax : lastMaxBy (fun g => satF (comb best g)) pool = some f)
    (hstall : satF (comb best f) = satF best) :
    scInner comb satF targetSat maxNb (fuel + 1) pool best res cache =
      some (res, cache) := by
  have hu : scInner comb satF targetSat maxNb (fuel + 1) pool best res
      cache =
      (if satF best < targetSat then
        if pool.isEmpty then some (res, cache)
        else
          match lastMaxBy (fun g => satF (comb best g)) pool with
          | none => none
          | some f2 =>
            if satF (comb best f2) = satF best then some (res, cache)
            else
              scInner comb satF targetSat maxNb fuel (pool.erase f2)
                (comb best f2) res ((cache.push best).2)
      else
        if satF best = targetSat then
          scOuter comb satF targetSat maxNb fuel pool (res ++ [best])
            ((cache.push best).2)
        else none) := rfl
  rw [hu, if_pos hlow, if_neg (by rw [hne]; exact Bool.false_ne_true)]
  simp only [hmax]
  rw [if_pos hstall]

/-- Witness for the C6 theorem at the counterexample inputs: the inner
loop hits the no-progress condition and the run ends with the result
accumulated so far. -/
theorem sc_no_progress_aborts_run_witness :
    scInner (fun a b => ⟨a.hash + b.hash, a.size + 1 + b.size,
        ⟨a.sv.values ||| b.sv.values⟩⟩)
      (fun f => if f.sv.values = 6 then 2 else 1) 2 5 9
      [⟨1, 1, ⟨4⟩⟩, ⟨2, 1, ⟨2⟩⟩, ⟨3, 1, ⟨1⟩⟩] ⟨4, 1, ⟨1⟩⟩ [] ⟨[]⟩ =
      some ([], ⟨[]⟩) :=
  sc_no_progress_aborts_run
    (fun a b => ⟨a.hash + b.hash, a.size + 1 + b.size,
      ⟨a.sv.values ||| b.sv.values⟩⟩)
    (fun f => if f.sv.values = 6 then 2 else 1) 2 5 8
    [⟨1, 1, ⟨4⟩⟩, ⟨2, 1, ⟨2⟩⟩, ⟨3, 1, ⟨1⟩⟩] ⟨4, 1, ⟨1⟩⟩ ⟨3, 1, ⟨1⟩⟩ []
    ⟨[]⟩ (by decide) rfl (by decide) (by decide)
